import Mathlib

/-!
Verification development for the ProffieOSx Power Manager
(`src/common/PowerManager.h`).

The embedding models the production build of the file (no `DIAGNOSE_POWER`,
no `ULTRAPROFFIE_CHARGER`, no ULTRAPROFFIE-'L' publish-on-sleep block):
* a `PowerDomain` keeps its single-bit `id`, its virtual default `timeout()`
  and its `countdownTimer` (a `uint32_t`, modelled as `Nat`);
* a `PowerSubscriber` keeps its `subscribedDomains` bitmask and the value of
  its virtual `HoldPower()` predicate;
* the `PowerManager` singleton state is the linked list of domains, the
  linked list of subscribers (head = most recently constructed object),
  the `powerState` bitmask, and `lastLoopTime`;
* hardware actuations (`SetPower`), subscriber callbacks and the deep-sleep
  entry are recorded as an event trace, since their bodies are opaque
  board-specific register code.
-/

namespace PowerMan

/-- `#define PWRMAN_TIMEOUTRES 10000` — loop/timeout resolution, in micros. -/
def PWRMAN_TIMEOUTRES : Nat := 10000

/-- `#define PWRMAN_MINTIMEOUT 20` — minimum timeout, in millis. -/
def PWRMAN_MINTIMEOUT : Nat := 20

/-- `#define PWRMAN_DEFTIMEOUT 1000` — default domain timeout. -/
def PWRMAN_DEFTIMEOUT : Nat := 1000

/-- `#define PWRMAN_AMPTIMEOUT 50` — audio amplifier timeout. -/
def PWRMAN_AMPTIMEOUT : Nat := 50

/-- `#define PWRMAN_CPUTIMEOUT 60000` — CPU deep sleep timeout. -/
def PWRMAN_CPUTIMEOUT : Nat := 60000

/-- `enum PDType` flag values (each a single bit of the `uint8_t` base). -/
def pwr4_CPU : Nat := 1

def pwr4_SD : Nat := 2

def pwr4_Booster : Nat := 4

def pwr4_Amplif : Nat := 8

def pwr4_Pixel : Nat := 16

def pwr4_Charger : Nat := 32

/-- `#define PWRMAN_STARTON pwr4_CPU` — domains turned on at startup. -/
def PWRMAN_STARTON : Nat := pwr4_CPU

/-- `enum WKSource` — wake-up sources (charger build's RTC source omitted). -/
inductive WKSource where
  | wakeUp_none : WKSource
  | wakeUp_button : WKSource
  | wakeUp_serial : WKSource
deriving DecidableEq

/-- A `PowerDomain` object: its virtual `id()`, its virtual `timeout()` and
its `countdownTimer` field.  `name()`/`SetPower` are board glue; `SetPower`
calls are recorded in the event trace instead. -/
structure PowerDomain where
  id : Nat
  timeout : Nat
  countdownTimer : Nat
deriving DecidableEq

/-- The `PowerDomain` constructor body: `countdownTimer = 0`. -/
def mkPowerDomain (id timeout : Nat) : PowerDomain :=
  ⟨id, timeout, 0⟩

/-- The `PowerDomain` constructor links the new object at the head of
`powerman.domains` (`next = powerman.domains; powerman.domains = this;`). -/
def registerDomain (d : PowerDomain) (ds : List PowerDomain) : List PowerDomain :=
  d :: ds

/-- Bitwise complement on the `uint8_t` (`PDType_base`) carrier, as used by
`domainsToCheck = ~domainsToCheck`, `nextPowerState &= ~pd->id()` and
`powerState &= ~pd->id()`. -/
def u8not (x : Nat) : Nat := (x % 256) ^^^ 255

/-- Truncating `uint32_t` subtraction, for `millis() - lastLoopTime`. -/
def u32sub (a b : Nat) : Nat := ((a % 2 ^ 32) + (2 ^ 32 - b % 2 ^ 32)) % 2 ^ 32

/-- `PowerDomain::ResetTimeout(uint32_t timeout_)`:
```
if (!timeout_) timeout_ = timeout();
if (timeout_ < PWRMAN_MINTIMEOUT) timeout_ = PWRMAN_MINTIMEOUT;
if (countdownTimer < timeout_) countdownTimer = timeout_;
``` -/
def PowerDomain.ResetTimeout (d : PowerDomain) (timeoutArg : Nat) : PowerDomain :=
  let t1 := if timeoutArg = 0 then d.timeout else timeoutArg
  let t2 := if t1 < PWRMAN_MINTIMEOUT then PWRMAN_MINTIMEOUT else t1
  if d.countdownTimer < t2 then { d with countdownTimer := t2 } else d

/-- `PowerDomain::CheckTimeout(uint32_t loopTime)`:
```
if (!countdownTimer) return false;
if (countdownTimer <= loopTime) { countdownTimer = 0; return true; }
countdownTimer -= loopTime; return false;
``` -/
def PowerDomain.CheckTimeout (d : PowerDomain) (loopTime : Nat) : Bool × PowerDomain :=
  if d.countdownTimer = 0 then (false, d)
  else if d.countdownTimer ≤ loopTime then (true, { d with countdownTimer := 0 })
  else (false, { d with countdownTimer := d.countdownTimer - loopTime })

/-- A `PowerSubscriber` object: its `subscribedDomains` bitmask and the value
of its virtual `HoldPower()`.  Callbacks are recorded in the event trace. -/
structure PowerSubscriber where
  subscribedDomains : Nat
  holdPower : Bool
deriving DecidableEq

/-- The `PowerSubscriber` constructor links the new object at the head of
`powerman.subscribers`. -/
def registerSubscriber (s : PowerSubscriber) (ss : List PowerSubscriber) :
    List PowerSubscriber :=
  s :: ss

/-- `PowerSubscriber::IsOn()`:
`(powerman.powerState & subscribedDomains) == subscribedDomains`. -/
def PowerSubscriber.IsOn (s : PowerSubscriber) (powerState : Nat) : Bool :=
  decide ((powerState &&& s.subscribedDomains) = s.subscribedDomains)

/-- Observable actions of the power manager: physical actuations (`SetPower`),
subscriber callbacks (identified by the subscriber's position in the
traversal list) and the `CPU_DeepSleep` entry. -/
inductive PMEvent where
  | setPower (id : Nat) (newState : Bool) : PMEvent
  | pwrOn (sub : Nat) : PMEvent
  | pwrOff (sub : Nat) : PMEvent
  | sleepEntry : PMEvent
deriving DecidableEq

/-- The mutable state of the `powerman` singleton. -/
structure PMState where
  domains : List PowerDomain
  subscribers : List PowerSubscriber
  powerState : Nat
  lastLoopTime : Nat
  wakeUpSource : WKSource
deriving DecidableEq

/-- `PowerManager` constructor: `powerState = 0; domains = NULL;
lastLoopTime = 0;` (plus the static `wakeUpSource = wakeUp_none`). -/
def initState (ds : List PowerDomain) (ss : List PowerSubscriber) : PMState :=
  ⟨ds, ss, 0, 0, WKSource.wakeUp_none⟩

/-- The wake ISRs (`pwrWakeUp_BTN` / `pwrWakeUp_SER`) overwrite
`wakeUpSource`; if no modelled interrupt fires the stored value stays. -/
def applyWakeISR : WKSource → WKSource → WKSource
  | WKSource.wakeUp_none, s => s
  | WKSource.wakeUp_button, _ => WKSource.wakeUp_button
  | WKSource.wakeUp_serial, _ => WKSource.wakeUp_serial

/-- `PowerManager::CPU_DeepSleep`: resets `wakeUpSource = wakeUp_none` at
entry, then blocks until a wake interrupt overwrites it. -/
def CPU_DeepSleep (wake : WKSource) : WKSource :=
  applyWakeISR wake WKSource.wakeUp_none

/-- Result of `activateAux` (the domain loop of `PowerManager::Activate`). -/
structure ActRes where
  domains : List PowerDomain
  powerState : Nat
  events : List PMEvent
  retVal : Bool
deriving DecidableEq

/-- Step 1 of `PowerManager::Activate`: for each domain with
`(pd->id() & startUpDomains) && !(pd->id() & powerState)`, call
`pd->ResetTimeout()`, set its bit in `powerState`, call `pd->SetPower(true)`
and set `retVal`. -/
def activateAux (mask : Nat) : List PowerDomain → Nat → ActRes
  | [], ps => ⟨[], ps, [], false⟩
  | d :: rest, ps =>
    if d.id &&& mask ≠ 0 ∧ d.id &&& ps = 0 then
      let r := activateAux mask rest (ps ||| d.id)
      ⟨d.ResetTimeout 0 :: r.domains, r.powerState,
        PMEvent.setPower d.id true :: r.events, true⟩
    else
      let r := activateAux mask rest ps
      ⟨d :: r.domains, r.powerState, r.events, r.retVal⟩

/-- Step 2 of `PowerManager::Activate`: walk the subscriber list (position
`k` onward) and fire `PwrOn_Callback` for each subscriber with `IsOn()`. -/
def onCallbackEvents (powerState : Nat) : List PowerSubscriber → Nat → List PMEvent
  | [], _ => []
  | s :: rest, k =>
    if s.IsOn powerState then
      PMEvent.pwrOn k :: onCallbackEvents powerState rest (k + 1)
    else
      onCallbackEvents powerState rest (k + 1)

/-- Result of `PowerManager::Activate` / `PowerSubscriber::RequestPower`:
the new manager state, the emitted events, and the C++ return value. -/
structure CallRes where
  state : PMState
  events : List PMEvent
  retVal : Bool
deriving DecidableEq

/-- `PowerManager::Activate(PDType_base startUpDomains)`. -/
def PowerManager.Activate (st : PMState) (startUpDomains : Nat) : CallRes :=
  if st.domains = [] then ⟨st, [], false⟩
  else
    let r := activateAux startUpDomains st.domains st.powerState
    let st' : PMState := { st with domains := r.domains, powerState := r.powerState }
    if st'.subscribers = [] ∨ r.retVal = false then ⟨st', r.events, r.retVal⟩
    else ⟨st', r.events ++ onCallbackEvents st'.powerState st'.subscribers 0, r.retVal⟩

/-- Result of `requestPowerAux` (the domain loop of `RequestPower`). -/
structure ReqRes where
  domains : List PowerDomain
  powerState : Nat
  events : List PMEvent
  retVal : Bool
deriving DecidableEq

/-- Step 1 of `PowerSubscriber::RequestPower`: for each subscribed domain,
`ResetTimeout` with the next entry of the caller-supplied timeout vector
(`pd->ResetTimeout(*timeout_++)`) or the default (`pd->ResetTimeout()` when
the pointer is null), then turn the domain on if its bit is clear.
Reading past the end of the supplied vector is undefined behaviour in the
source; the model substitutes 0 there, and every theorem that uses a vector
supplies one entry per subscribed domain. -/
def requestPowerAux (mask : Nat) :
    List PowerDomain → Nat → Option (List Nat) → ReqRes
  | [], ps, _ => ⟨[], ps, [], false⟩
  | d :: rest, ps, ts =>
    if d.id &&& mask ≠ 0 then
      let t := match ts with
        | none => 0
        | some l => l.headD 0
      let ts' := match ts with
        | none => none
        | some l => some l.tail
      if d.id &&& ps = 0 then
        let r := requestPowerAux mask rest (ps ||| d.id) ts'
        ⟨d.ResetTimeout t :: r.domains, r.powerState,
          PMEvent.setPower d.id true :: r.events, true⟩
      else
        let r := requestPowerAux mask rest ps ts'
        ⟨d.ResetTimeout t :: r.domains, r.powerState, r.events, r.retVal⟩
    else
      let r := requestPowerAux mask rest ps ts
      ⟨d :: r.domains, r.powerState, r.events, r.retVal⟩

/-- `PowerSubscriber::RequestPower(uint32_t* timeout_)` of the subscriber at
position `subIdx` of the traversal list; fires that subscriber's
`PwrOn_Callback` iff some subscribed domain just turned on. -/
def requestPower (st : PMState) (subIdx : Nat) (ts : Option (List Nat)) : CallRes :=
  match st.subscribers[subIdx]? with
  | none => ⟨st, [], false⟩
  | some sub =>
    if st.domains = [] then ⟨st, [], false⟩
    else
      let r := requestPowerAux sub.subscribedDomains st.domains st.powerState ts
      let st' : PMState := { st with domains := r.domains, powerState := r.powerState }
      if r.retVal then ⟨st', r.events ++ [PMEvent.pwrOn subIdx], true⟩
      else ⟨st', r.events, false⟩

/-- Loop step 1: OR of `subscribedDomains` over subscribers with
`HoldPower()` true (`domainsToCheck |= ps->subscribedDomains`). -/
def heldMask (ss : List PowerSubscriber) : Nat :=
  ss.foldl (fun acc s => if s.holdPower then acc ||| s.subscribedDomains else acc) 0

/-- Result of `checkPhase` (Loop step 2). -/
structure CheckRes where
  domains : List PowerDomain
  nextPowerState : Nat
deriving DecidableEq

/-- Loop step 2: for each domain with
`pd->id() & powerState & domainsToCheck` nonzero, run
`pd->CheckTimeout(loopTime)`; an expired domain clears its flag in
`nextPowerState` (`nextPowerState &= ~pd->id()`).  `checkMask` is
`powerState & domainsToCheck`. -/
def checkPhase (loopTime checkMask : Nat) : List PowerDomain → Nat → CheckRes
  | [], nps => ⟨[], nps⟩
  | d :: rest, nps =>
    if d.id &&& checkMask ≠ 0 then
      let c := d.CheckTimeout loopTime
      let nps' := if c.1 then nps &&& u8not d.id else nps
      let r := checkPhase loopTime checkMask rest nps'
      ⟨c.2 :: r.domains, r.nextPowerState⟩
    else
      let r := checkPhase loopTime checkMask rest nps
      ⟨d :: r.domains, r.nextPowerState⟩

/-- Loop step 3: fire `PwrOff_Callback` (subscriber positions `k` onward) for
every subscriber whose whole mask is in `powerState` but not in
`nextPowerState`. -/
def offCallbackEvents (ps nps : Nat) : List PowerSubscriber → Nat → List PMEvent
  | [], _ => []
  | s :: rest, k =>
    if s.subscribedDomains &&& ps = s.subscribedDomains ∧
        s.subscribedDomains &&& nps ≠ s.subscribedDomains then
      PMEvent.pwrOff k :: offCallbackEvents ps nps rest (k + 1)
    else
      offCallbackEvents ps nps rest (k + 1)

/-- Result of `turnOffPhase` (Loop step 4). -/
structure OffRes where
  powerState : Nat
  events : List PMEvent
deriving DecidableEq

/-- Loop step 4: for each domain with
`(pd->id() & powerState) && (pd->id() & ~nextPowerState)`, call
`pd->SetPower(false)` and clear its flag in the live `powerState`. -/
def turnOffPhase (nps : Nat) : List PowerDomain → Nat → OffRes
  | [], ps => ⟨ps, []⟩
  | d :: rest, ps =>
    if d.id &&& ps ≠ 0 ∧ d.id &&& u8not nps ≠ 0 then
      let r := turnOffPhase nps rest (ps &&& u8not d.id)
      ⟨r.powerState, PMEvent.setPower d.id false :: r.events⟩
    else
      let r := turnOffPhase nps rest ps
      ⟨r.powerState, r.events⟩

/-- `PowerManager::Loop()`.  `timeNow` is the value of `millis()`; `wake` is
the interrupt that would end a deep sleep, should this tick enter one. -/
def PowerManager.Loop (st : PMState) (timeNow : Nat) (wake : WKSource) :
    PMState × List PMEvent :=
  if st.domains = [] then (st, [])
  else
    let loopTime := u32sub timeNow st.lastLoopTime
    let st1 : PMState := { st with lastLoopTime := timeNow }
    if PWRMAN_MINTIMEOUT ≤ loopTime then (st1, [])
    else
      let domainsToCheck := u8not (heldMask st1.subscribers)
      let chk := checkPhase loopTime (st1.powerState &&& domainsToCheck)
        st1.domains st1.powerState
      let st2 : PMState := { st1 with domains := chk.domains }
      if chk.nextPowerState = st2.powerState then (st2, [])
      else
        let offEvs := offCallbackEvents st2.powerState chk.nextPowerState
          st2.subscribers 0
        let off := turnOffPhase chk.nextPowerState st2.domains st2.powerState
        let st3 : PMState := { st2 with powerState := off.powerState }
        if st3.powerState ≠ 0 then (st3, offEvs ++ off.events)
        else
          let st4 : PMState := { st3 with wakeUpSource := CPU_DeepSleep wake }
          let act := PowerManager.Activate st4 PWRMAN_STARTON
          (act.state, offEvs ++ off.events ++ [PMEvent.sleepEntry] ++ act.events)

/-- Result of `forceAllOff` (domain loop of the `deepsleep` command). -/
structure ForceRes where
  domains : List PowerDomain
  powerState : Nat
  events : List PMEvent
deriving DecidableEq

/-- The `deepsleep` command's domain loop: every domain with its bit set is
`SetPower(false)`-ed, its bit cleared and its `countdownTimer` zeroed. -/
def forceAllOff : List PowerDomain → Nat → ForceRes
  | [], ps => ⟨[], ps, []⟩
  | d :: rest, ps =>
    if d.id &&& ps ≠ 0 then
      let r := forceAllOff rest (ps &&& u8not d.id)
      ⟨{ d with countdownTimer := 0 } :: r.domains, r.powerState,
        PMEvent.setPower d.id false :: r.events⟩
    else
      let r := forceAllOff rest ps
      ⟨d :: r.domains, r.powerState, r.events⟩

/-- The `deepsleep` command's subscriber loop: `PwrOff_Callback` for every
subscriber, unconditionally. -/
def allOffEvents : List PowerSubscriber → Nat → List PMEvent
  | [], _ => []
  | _ :: rest, k => PMEvent.pwrOff k :: allOffEvents rest (k + 1)

/-- The always-compiled branch of `PowerManager::Parse`: the `deepsleep`
command.  `saberIsOn` is the external `SaberBase::IsOn()` safety
precondition; when it holds the command refuses and changes nothing. -/
def cmdDeepSleep (st : PMState) (saberIsOn : Bool) (wake : WKSource) :
    PMState × List PMEvent :=
  if saberIsOn then (st, [])
  else if st.domains = [] then (st, [])
  else
    let f := forceAllOff st.domains st.powerState
    let offEvs := allOffEvents st.subscribers 0
    let st1 : PMState :=
      { st with domains := f.domains, powerState := f.powerState,
                wakeUpSource := CPU_DeepSleep wake }
    let act := PowerManager.Activate st1 PWRMAN_STARTON
    (act.state, f.events ++ offEvs ++ [PMEvent.sleepEntry] ++ act.events)

/-- The operations this subsystem performs on its state: arbitration ticks,
activations, subscriber power requests and the administrative command. -/
inductive PMOp where
  | loop (timeNow : Nat) (wake : WKSource) : PMOp
  | activate (mask : Nat) : PMOp
  | reqPower (subIdx : Nat) (ts : Option (List Nat)) : PMOp
  | deepSleepCmd (saberIsOn : Bool) (wake : WKSource) : PMOp

/-- Run one operation, returning the new state and the emitted events. -/
def runOp (st : PMState) : PMOp → PMState × List PMEvent
  | PMOp.loop t w => PowerManager.Loop st t w
  | PMOp.activate m =>
    let r := PowerManager.Activate st m
    (r.state, r.events)
  | PMOp.reqPower i ts =>
    let r := requestPower st i ts
    (r.state, r.events)
  | PMOp.deepSleepCmd b w => cmdDeepSleep st b w

/-- Run a list of operations, accumulating the event trace. -/
def runOps (st : PMState) : List PMOp → PMState × List PMEvent
  | [] => (st, [])
  | op :: rest =>
    let r := runOp st op
    let r' := runOps r.1 rest
    (r'.1, r.2 ++ r'.2)

/-- One event's effect on "the most recent `SetPower` argument for `id`". -/
def lastSetStep (id : Nat) (acc : Option Bool) (e : PMEvent) : Option Bool :=
  match e with
  | PMEvent.setPower i b => if i = id then some b else acc
  | _ => acc

/-- The argument of the most recent `SetPower` call issued on domain `id`
within the trace `tr` (`none` if no such call was issued). -/
def lastSetPower (tr : List PMEvent) (id : Nat) : Option Bool :=
  tr.foldl (lastSetStep id) none

/-- How a trace fragment updates the on/off status of domain `id`. -/
def updBit (ev : List PMEvent) (id : Nat) (old : Bool) : Bool :=
  (lastSetPower ev id).getD old

/-- A `PDType` flag: a single bit of the `uint8_t` carrier. -/
def SingleBit (n : Nat) : Prop := ∃ i, i < 8 ∧ n = 2 ^ i

/-- Well-formed registry: every domain id is a distinct `PDType` flag (the
source registers exactly one singleton object per enum flag). -/
def WFids (ds : List PowerDomain) : Prop :=
  (∀ d ∈ ds, SingleBit d.id) ∧ (ds.map PowerDomain.id).Nodup

/-- The claimed invariant: a registered domain's bit is set in `powerState`
iff the most recent `SetPower` on that domain had argument `true`. -/
def BitsSynced (st : PMState) (tr : List PMEvent) : Prop :=
  ∀ d ∈ st.domains, ((st.powerState &&& d.id) = d.id ↔ lastSetPower tr d.id = some true)

/-! ### The concrete boot-time registry

Construction order of the global domain objects in the source file:
`pwrdom_pixel`, `pwrdom_amp`, `pwrdom_boost`, `pwrdom_sd`, `pwrdom_cpu`.
Each constructor pushes itself at the head of `powerman.domains`. -/

/-- `pwrdom_pixel` (default `timeout()`). -/
def pwrdom_pixel : PowerDomain := mkPowerDomain pwr4_Pixel PWRMAN_DEFTIMEOUT

/-- `pwrdom_amp` (`timeout()` overridden to `PWRMAN_AMPTIMEOUT`). -/
def pwrdom_amp : PowerDomain := mkPowerDomain pwr4_Amplif PWRMAN_AMPTIMEOUT

/-- `pwrdom_boost` (default `timeout()`). -/
def pwrdom_boost : PowerDomain := mkPowerDomain pwr4_Booster PWRMAN_DEFTIMEOUT

/-- `pwrdom_sd` (default `timeout()`; the SD override is commented out). -/
def pwrdom_sd : PowerDomain := mkPowerDomain pwr4_SD PWRMAN_DEFTIMEOUT

/-- `pwrdom_cpu` (`timeout()` overridden to `PWRMAN_CPUTIMEOUT`). -/
def pwrdom_cpu : PowerDomain := mkPowerDomain pwr4_CPU PWRMAN_CPUTIMEOUT

/-- The global domain objects in construction (registration) order. -/
def constructionOrder : List PowerDomain :=
  [pwrdom_pixel, pwrdom_amp, pwrdom_boost, pwrdom_sd, pwrdom_cpu]

/-- The `powerman.domains` linked list after all static constructors ran:
each constructor pushed itself at the head. -/
def bootDomains : List PowerDomain :=
  constructionOrder.foldl (fun acc d => registerDomain d acc) []

/-! ### Bitmask helper lemmas -/

theorem and_pow_ne_zero_iff (x i : Nat) : (x &&& 2 ^ i ≠ 0) ↔ x.testBit i := by
  constructor
  · intro h
    by_contra hb
    apply h
    apply Nat.eq_of_testBit_eq
    intro j
    simp only [Nat.testBit_and, Nat.testBit_two_pow, Nat.zero_testBit, Bool.and_eq_false_iff]
    by_cases hji : i = j
    · subst hji
      left
      simpa using hb
    · right
      simpa using hji
  · intro h hne
    have := congrArg (fun z => z.testBit i) hne
    simp [Nat.testBit_and, Nat.testBit_two_pow, Nat.zero_testBit, h] at this

theorem and_pow_eq_pow_iff (x i : Nat) : (x &&& 2 ^ i = 2 ^ i) ↔ x.testBit i := by
  constructor
  · intro h
    have := congrArg (fun z => z.testBit i) h
    simpa [Nat.testBit_and, Nat.testBit_two_pow] using this
  · intro h
    apply Nat.eq_of_testBit_eq
    intro j
    by_cases hji : i = j
    · subst hji
      simp [Nat.testBit_and, Nat.testBit_two_pow, h]
    · simp [Nat.testBit_and, Nat.testBit_two_pow, hji]

theorem pow_and_ne_zero_iff (x i : Nat) : (2 ^ i &&& x ≠ 0) ↔ x.testBit i := by
  rw [Nat.land_comm]
  exact and_pow_ne_zero_iff x i

theorem testBit_u8not (x i : Nat) (h : i < 8) : (u8not x).testBit i = !x.testBit i := by
  unfold u8not
  rw [show (255 : Nat) = 2 ^ 8 - 1 from rfl, show (256 : Nat) = 2 ^ 8 from rfl,
    Nat.testBit_xor, Nat.testBit_mod_two_pow, Nat.testBit_two_pow_sub_one]
  simp [h]

theorem testBit_or_pow (ps j i : Nat) :
    (ps ||| 2 ^ j).testBit i = (ps.testBit i || decide (j = i)) := by
  simp [Nat.testBit_or, Nat.testBit_two_pow]

theorem testBit_and_u8not_pow (ps j i : Nat) (h : i < 8) :
    (ps &&& u8not (2 ^ j)).testBit i = (ps.testBit i && !(decide (j = i))) := by
  simp [Nat.testBit_and, testBit_u8not _ _ h, Nat.testBit_two_pow]

theorem heldMask_testBit (ss : List PowerSubscriber) (s : PowerSubscriber)
    (hs : s ∈ ss) (hh : s.holdPower = true) (i : Nat)
    (hb : s.subscribedDomains.testBit i = true) : (heldMask ss).testBit i = true := by
  have key : ∀ (l : List PowerSubscriber) (acc : Nat),
      (s ∈ l ∨ acc.testBit i = true) →
      (l.foldl (fun a q => if q.holdPower then a ||| q.subscribedDomains else a) acc).testBit i
        = true := by
    intro l
    induction l with
    | nil =>
      intro acc hmem
      rcases hmem with hmem | hmem
      · exact absurd hmem (List.not_mem_nil s)
      · simpa using hmem
    | cons q rest ih =>
      intro acc hmem
      simp only [List.foldl_cons]
      rcases hmem with hmem | hacc
      · rcases List.mem_cons.mp hmem with hq | hrest
        · subst hq
          apply ih
          right
          simp [hh, Nat.testBit_or, hb]
        · exact ih _ (Or.inl hrest)
      · apply ih
        right
        by_cases hq : q.holdPower <;> simp [hq, Nat.testBit_or, hacc]
  exact key ss 0 (Or.inl hs)

/-! ### Domain timer lemmas (claims C3, C4) -/

/-- The clamping function the spec describes: a zero request means the
domain default, and everything is floored at `PWRMAN_MINTIMEOUT`. -/
def clampSpec (deflt t : Nat) : Nat :=
  max PWRMAN_MINTIMEOUT (if t = 0 then deflt else t)

theorem ResetTimeout_eq_max (d : PowerDomain) (t : Nat) :
    d.ResetTimeout t =
      { d with countdownTimer := max d.countdownTimer (clampSpec d.timeout t) } := by
  cases d with
  | mk di dt dc =>
    unfold PowerDomain.ResetTimeout clampSpec PWRMAN_MINTIMEOUT
    dsimp only
    split_ifs <;> simp_all [PowerDomain.mk.injEq] <;> omega

theorem foldl_ResetTimeout_countdown (ts : List Nat) (d : PowerDomain) :
    (ts.foldl PowerDomain.ResetTimeout d).countdownTimer
      = (ts.map (clampSpec d.timeout)).foldl max d.countdownTimer := by
  induction ts generalizing d with
  | nil => rfl
  | cons t rest ih =>
    simp only [List.foldl_cons, List.map_cons]
    rw [ih (d.ResetTimeout t)]
    rw [ResetTimeout_eq_max]

/-- C3: for any sequence of `ResetTimeout(t1), …, ResetTimeout(tn)` calls on
one domain without intervening expiry, the stored `countdownTimer` equals
`max(clamp(t1), …, clamp(tn))` where `clamp` substitutes the domain default
for a zero argument and floors at `PWRMAN_MINTIMEOUT`; a single call stores
the max of the current countdown and the clamped request, so a later smaller
request never shortens the countdown, and a below-minimum request is clamped
rather than rejected. -/
theorem C3_resetTimeout_monotone_max :
    (∀ (d : PowerDomain) (t : Nat),
        (d.ResetTimeout t).countdownTimer
          = max d.countdownTimer (clampSpec d.timeout t)) ∧
    (∀ (d : PowerDomain) (ts : List Nat), d.countdownTimer = 0 →
        (ts.foldl PowerDomain.ResetTimeout d).countdownTimer
          = (ts.map (clampSpec d.timeout)).foldl max 0) := by
  constructor
  · intro d t
    rw [ResetTimeout_eq_max]
  · intro d ts h0
    rw [foldl_ResetTimeout_countdown, h0]

/-- Witness for C3 at concrete inputs: requests 100, 30, 5, 0 on a fresh
domain with default timeout 1000 leave the countdown at
`max(100, 30, 20, 1000) = 1000`. -/
theorem C3_witness :
    ((mkPowerDomain 2 1000).ResetTimeout 30).countdownTimer
        = max (mkPowerDomain 2 1000).countdownTimer (clampSpec 1000 30) ∧
    ([100, 30, 5, 0].foldl PowerDomain.ResetTimeout (mkPowerDomain 2 1000)).countdownTimer
        = ([100, 30, 5, 0].map (clampSpec 1000)).foldl max 0 := by
  exact ⟨C3_resetTimeout_monotone_max.1 (mkPowerDomain 2 1000) 30,
    C3_resetTimeout_monotone_max.2 (mkPowerDomain 2 1000) [100, 30, 5, 0] rfl⟩

/-- C4: `CheckTimeout(elapsed)` on an unarmed timer (0) reports no expiry and
leaves the timer at 0 — so repeated calls after an expiry keep reporting
not-expired until re-armed; on an armed timer it reports expiry and snaps to
0 when `timer ≤ elapsed`, and otherwise stores `timer - elapsed` and reports
no expiry. -/
theorem C4_checkTimeout_cases :
    ∀ (d : PowerDomain) (elapsed : Nat),
      (d.countdownTimer = 0 → d.CheckTimeout elapsed = (false, d)) ∧
      (d.countdownTimer ≠ 0 → d.countdownTimer ≤ elapsed →
          d.CheckTimeout elapsed = (true, { d with countdownTimer := 0 })) ∧
      (d.countdownTimer ≠ 0 → elapsed < d.countdownTimer →
          d.CheckTimeout elapsed
            = (false, { d with countdownTimer := d.countdownTimer - elapsed })) := by
  intro d elapsed
  refine ⟨fun h0 => ?_, fun h0 hle => ?_, fun h0 hlt => ?_⟩
  · simp [PowerDomain.CheckTimeout, h0]
  · simp [PowerDomain.CheckTimeout, h0, hle]
  · simp [PowerDomain.CheckTimeout, h0, Nat.not_le.mpr hlt, Nat.not_eq_zero_of_lt hlt]

/-- Witness for C4 at concrete inputs: timer 0 stays unarmed, timer 10 with
elapsed 15 expires to 0, timer 100 with elapsed 15 decrements to 85. -/
theorem C4_witness :
    PowerDomain.CheckTimeout ⟨2, 1000, 0⟩ 15 = (false, ⟨2, 1000, 0⟩) ∧
    PowerDomain.CheckTimeout ⟨2, 1000, 10⟩ 15 = (true, ⟨2, 1000, 0⟩) ∧
    PowerDomain.CheckTimeout ⟨2, 1000, 100⟩ 15 = (false, ⟨2, 1000, 85⟩) := by
  refine ⟨(C4_checkTimeout_cases ⟨2, 1000, 0⟩ 15).1 rfl,
    (C4_checkTimeout_cases ⟨2, 1000, 10⟩ 15).2.1 (by decide) (by decide),
    (C4_checkTimeout_cases ⟨2, 1000, 100⟩ 15).2.2 (by decide) (by decide)⟩

/-! ### The jitter guard (claim C6) -/

/-- C6: a tick whose measured elapsed time exceeds the nominal poll period
(`PWRMAN_MINTIMEOUT`, the constant the guard compares against) performs no
timeout processing: no countdown timer changes, no power-state bit changes,
no callback and no `SetPower` call is issued (the event trace is empty);
only the `lastLoopTime` time keeper is refreshed. -/
theorem C6_jitter_guard_skips_tick (st : PMState) (timeNow : Nat) (wake : WKSource)
    (h : PWRMAN_MINTIMEOUT < u32sub timeNow st.lastLoopTime) :
    (PowerManager.Loop st timeNow wake).2 = [] ∧
    (PowerManager.Loop st timeNow wake).1.domains = st.domains ∧
    (PowerManager.Loop st timeNow wake).1.powerState = st.powerState ∧
    (PowerManager.Loop st timeNow wake).1.subscribers = st.subscribers ∧
    (PowerManager.Loop st timeNow wake).1.wakeUpSource = st.wakeUpSource := by
  by_cases hd : st.domains = []
  · simp [PowerManager.Loop, hd]
  · simp [PowerManager.Loop, hd, Nat.le_of_lt h]

/-- Witness for C6: a delayed tick (elapsed 100 ms > 20 ms) leaves the armed
domain and the power state untouched and emits nothing. -/
theorem C6_witness :
    PWRMAN_MINTIMEOUT < u32sub 200 100 ∧
    (PowerManager.Loop ⟨[⟨2, 1000, 77⟩], [], 2, 100, WKSource.wakeUp_none⟩ 200
        WKSource.wakeUp_button).2 = [] ∧
    (PowerManager.Loop ⟨[⟨2, 1000, 77⟩], [], 2, 100, WKSource.wakeUp_none⟩ 200
        WKSource.wakeUp_button).1.domains = [⟨2, 1000, 77⟩] ∧
    (PowerManager.Loop ⟨[⟨2, 1000, 77⟩], [], 2, 100, WKSource.wakeUp_none⟩ 200
        WKSource.wakeUp_button).1.powerState = 2 := by
  have h := C6_jitter_guard_skips_tick
    ⟨[⟨2, 1000, 77⟩], [], 2, 100, WKSource.wakeUp_none⟩ 200 WKSource.wakeUp_button
    (by decide)
  exact ⟨by decide, h.1, h.2.1, h.2.2.1⟩

/-! ### Phase lemmas for the arbitration loop -/

theorem checkPhase_domains (lt m : Nat) (ds : List PowerDomain) (nps : Nat) :
    (checkPhase lt m ds nps).domains
      = ds.map (fun d => if d.id &&& m ≠ 0 then (d.CheckTimeout lt).2 else d) := by
  induction ds generalizing nps with
  | nil => rfl
  | cons d rest ih =>
    by_cases h : d.id &&& m ≠ 0
    · simp [checkPhase, h, ih]
    · have h0 : d.id &&& m = 0 := not_not.mp h
      simp [checkPhase, h, h0, ih]

theorem checkPhase_nps_testBit (lt m i : Nat) (hi : i < 8) (hm : m.testBit i = false) :
    ∀ (ds : List PowerDomain), (∀ d ∈ ds, SingleBit d.id) →
      ∀ nps, (checkPhase lt m ds nps).nextPowerState.testBit i = nps.testBit i := by
  intro ds
  induction ds with
  | nil => intro _ nps; rfl
  | cons d rest ih =>
    intro hall nps
    have hrest : ∀ d' ∈ rest, SingleBit d'.id :=
      fun d' hd' => hall d' (List.mem_cons_of_mem _ hd')
    obtain ⟨j, hj8, hdj⟩ := hall d (List.mem_cons_self d rest)
    by_cases h : d.id &&& m ≠ 0
    · have hji : ¬(j = i) := by
        intro hji
        rw [hdj, pow_and_ne_zero_iff] at h
        rw [hji] at h
        simp [hm] at h
      simp only [checkPhase, if_pos h]
      rw [ih hrest]
      by_cases hexp : (d.CheckTimeout lt).1 = true
      · simp only [hexp, if_true, hdj]
        rw [testBit_and_u8not_pow _ _ _ hi]
        simp [hji]
      · simp only [Bool.not_eq_true] at hexp
        simp [hexp]
    · simp only [checkPhase, if_neg h]
      exact ih hrest nps

theorem turnOffPhase_preserve_testBit (nps i : Nat) (hi : i < 8)
    (hnps : nps.testBit i = true) :
    ∀ (ds : List PowerDomain), (∀ d ∈ ds, SingleBit d.id) →
      ∀ ps, ps.testBit i = true →
        (turnOffPhase nps ds ps).powerState.testBit i = true := by
  intro ds
  induction ds with
  | nil => intro _ ps hps; exact hps
  | cons d rest ih =>
    intro hall ps hps
    have hrest : ∀ d' ∈ rest, SingleBit d'.id :=
      fun d' hd' => hall d' (List.mem_cons_of_mem _ hd')
    obtain ⟨j, hj8, hdj⟩ := hall d (List.mem_cons_self d rest)
    by_cases h : d.id &&& ps ≠ 0 ∧ d.id &&& u8not nps ≠ 0
    · have hji : ¬(j = i) := by
        intro hji
        have h2 := h.2
        rw [hdj, pow_and_ne_zero_iff, hji, testBit_u8not _ _ hi, hnps] at h2
        simp at h2
      simp only [turnOffPhase, if_pos h]
      apply ih hrest
      rw [hdj, testBit_and_u8not_pow _ _ _ hi]
      simp [hps, hji]
    · simp only [turnOffPhase, if_neg h]
      exact ih hrest ps hps

theorem testBit_ne_zero {n i : Nat} (h : n.testBit i = true) : n ≠ 0 := by
  intro h0
  rw [h0, Nat.zero_testBit] at h
  exact Bool.false_ne_true h

theorem pow_and_eq_zero_of_testBit (x i : Nat) (h : x.testBit i = false) :
    2 ^ i &&& x = 0 := by
  apply Nat.eq_of_testBit_eq
  intro j
  rw [Nat.testBit_and, Nat.testBit_two_pow, Nat.zero_testBit]
  by_cases hij : i = j
  · subst hij
    simp [h]
  · simp [hij]

theorem singleBit_iff_mem (n : Nat) :
    SingleBit n ↔ n ∈ [1, 2, 4, 8, 16, 32, 64, 128] := by
  constructor
  · rintro ⟨i, hi, rfl⟩
    interval_cases i <;> simp
  · intro h
    fin_cases h
    exacts [⟨0, by decide, rfl⟩, ⟨1, by decide, rfl⟩, ⟨2, by decide, rfl⟩,
      ⟨3, by decide, rfl⟩, ⟨4, by decide, rfl⟩, ⟨5, by decide, rfl⟩,
      ⟨6, by decide, rfl⟩, ⟨7, by decide, rfl⟩]

instance : DecidablePred SingleBit := fun n =>
  decidable_of_iff _ (singleBit_iff_mem n).symm

/-! ### Hold suppresses expiry (claim C5) -/

/-- A subscriber holding power shields every domain it subscribes from the
tick's timeout check: the domain's bit survives the tick and its list entry
(in particular its `countdownTimer`) is untouched. -/
theorem loop_hold_suppression (st : PMState) (timeNow : Nat) (wake : WKSource)
    (j : Nat) (s : PowerSubscriber) (hj : st.subscribers[j]? = some s)
    (hh : s.holdPower = true)
    (k : Nat) (d : PowerDomain) (hk : st.domains[k]? = some d)
    (hall : ∀ d' ∈ st.domains, SingleBit d'.id)
    (hsub : d.id &&& s.subscribedDomains ≠ 0)
    (hon : st.powerState &&& d.id = d.id) :
    ((PowerManager.Loop st timeNow wake).1.powerState &&& d.id = d.id) ∧
    (PowerManager.Loop st timeNow wake).1.domains[k]? = some d := by
  obtain ⟨i, hi8, hdi⟩ := hall d (List.getElem?_mem hk)
  have hsbit : s.subscribedDomains.testBit i = true := by
    rw [hdi, pow_and_ne_zero_iff] at hsub
    exact hsub
  have hheld : (heldMask st.subscribers).testBit i = true :=
    heldMask_testBit st.subscribers s (List.getElem?_mem hj) hh i hsbit
  have honbit : st.powerState.testBit i = true := by
    rw [hdi, and_pow_eq_pow_iff] at hon
    exact hon
  have hd : st.domains ≠ [] := by
    intro h0
    rw [h0] at hk
    simp at hk
  -- the check mask has bit i clear
  have hcm : (st.powerState &&& u8not (heldMask st.subscribers)).testBit i = false := by
    rw [Nat.testBit_and, testBit_u8not _ _ hi8, hheld]
    simp
  have hdm : d.id &&& (st.powerState &&& u8not (heldMask st.subscribers)) = 0 := by
    rw [hdi]
    exact pow_and_eq_zero_of_testBit _ i hcm
  by_cases hskip : PWRMAN_MINTIMEOUT ≤ u32sub timeNow st.lastLoopTime
  · simp [PowerManager.Loop, hd, hskip, hon, hk]
  · -- the tick runs; our domain is exempt from the check phase
    set lt := u32sub timeNow st.lastLoopTime with hlt
    set cm := st.powerState &&& u8not (heldMask st.subscribers) with hcmdef
    have hdomk :
        (checkPhase lt cm st.domains st.powerState).domains[k]? = some d := by
      rw [checkPhase_domains, List.getElem?_map, hk]
      simp [hdm]
    have hnpsbit :
        (checkPhase lt cm st.domains st.powerState).nextPowerState.testBit i = true := by
      rw [checkPhase_nps_testBit lt cm i hi8 hcm st.domains hall st.powerState]
      exact honbit
    by_cases heq : (checkPhase lt cm st.domains st.powerState).nextPowerState
        = st.powerState
    · simp [PowerManager.Loop, hd, hskip, heq, hon, hdomk]
    · have hchkall : ∀ d' ∈ (checkPhase lt cm st.domains st.powerState).domains,
          SingleBit d'.id := by
        rw [checkPhase_domains]
        intro d' hd'
        obtain ⟨d0, hd0, hfn⟩ := List.mem_map.mp hd'
        obtain ⟨j0, hj0, hdj0⟩ := hall d0 hd0
        refine ⟨j0, hj0, ?_⟩
        rw [← hfn]
        by_cases hc : d0.id &&& cm ≠ 0
        · simp only [if_pos hc]
          rw [← hdj0]
          unfold PowerDomain.CheckTimeout
          split
          · rfl
          · split <;> rfl
        · simp only [if_neg hc]
          exact hdj0
      have hoffbit : (turnOffPhase
          (checkPhase lt cm st.domains st.powerState).nextPowerState
          (checkPhase lt cm st.domains st.powerState).domains
          st.powerState).powerState.testBit i = true :=
        turnOffPhase_preserve_testBit _ i hi8 hnpsbit _ hchkall _ honbit
      have hoffne : (turnOffPhase
          (checkPhase lt cm st.domains st.powerState).nextPowerState
          (checkPhase lt cm st.domains st.powerState).domains
          st.powerState).powerState ≠ 0 := testBit_ne_zero hoffbit
      have hoffon : (turnOffPhase
          (checkPhase lt cm st.domains st.powerState).nextPowerState
          (checkPhase lt cm st.domains st.powerState).domains
          st.powerState).powerState &&& d.id = d.id := by
        rw [hdi, and_pow_eq_pow_iff]
        exact hoffbit
      simp [PowerManager.Loop, hd, hskip, heq, hoffne, hoffon, hdomk]

/-- C5: while a subscriber whose `HoldPower()` is true subscribes a domain,
arbitration ticks never clear that domain's bit and never touch its timer
(it is not consulted), no matter how much time elapses; and once hold is
cleared, expiry is allowed again — in the concrete run below a domain armed
at the 20 ms minimum sees 10 ms of consulted elapsed time, is then held for
two 10 ms ticks (total elapsed 30 ms > 20 ms, bit retained, timer frozen at
10), and after the hold is cleared it expires on the very next tick, whose
accumulated elapsed time has already exceeded the timeout. -/
theorem C5_hold_suppresses_expiry :
    (∀ (st : PMState) (timeNow : Nat) (wake : WKSource) (j : Nat)
        (s : PowerSubscriber), st.subscribers[j]? = some s → s.holdPower = true →
      ∀ (k : Nat) (d : PowerDomain), st.domains[k]? = some d →
        (∀ d' ∈ st.domains, SingleBit d'.id) →
        d.id &&& s.subscribedDomains ≠ 0 →
        st.powerState &&& d.id = d.id →
        ((PowerManager.Loop st timeNow wake).1.powerState &&& d.id = d.id) ∧
          (PowerManager.Loop st timeNow wake).1.domains[k]? = some d) ∧
    (PowerManager.Loop ⟨[⟨2, 1000, 20⟩], [⟨2, false⟩], 2, 0, WKSource.wakeUp_none⟩
        10 WKSource.wakeUp_none).1
      = ⟨[⟨2, 1000, 10⟩], [⟨2, false⟩], 2, 10, WKSource.wakeUp_none⟩ ∧
    (PowerManager.Loop ⟨[⟨2, 1000, 10⟩], [⟨2, true⟩], 2, 10, WKSource.wakeUp_none⟩
        20 WKSource.wakeUp_none).1
      = ⟨[⟨2, 1000, 10⟩], [⟨2, true⟩], 2, 20, WKSource.wakeUp_none⟩ ∧
    (PowerManager.Loop ⟨[⟨2, 1000, 10⟩], [⟨2, true⟩], 2, 20, WKSource.wakeUp_none⟩
        30 WKSource.wakeUp_none).1
      = ⟨[⟨2, 1000, 10⟩], [⟨2, true⟩], 2, 30, WKSource.wakeUp_none⟩ ∧
    (PowerManager.Loop ⟨[⟨2, 1000, 10⟩], [⟨2, false⟩], 2, 30, WKSource.wakeUp_none⟩
        40 WKSource.wakeUp_none).1.powerState = 0 ∧
    (PowerManager.Loop ⟨[⟨2, 1000, 10⟩], [⟨2, false⟩], 2, 30, WKSource.wakeUp_none⟩
        40 WKSource.wakeUp_none).2
      = [PMEvent.pwrOff 0, PMEvent.setPower 2 false, PMEvent.sleepEntry] := by
  refine ⟨?_, by decide, by decide, by decide, by decide, by decide⟩
  intro st timeNow wake j s hj hh k d hk hall hsub hon
  exact loop_hold_suppression st timeNow wake j s hj hh k d hk hall hsub hon

/-- Witness for C5's universally quantified part: the held tick of the run
above, with the suppression theorem applied at that concrete input. -/
theorem C5_witness :
    ((PowerManager.Loop ⟨[⟨2, 1000, 10⟩], [⟨2, true⟩], 2, 10, WKSource.wakeUp_none⟩
        20 WKSource.wakeUp_none).1.powerState &&& 2 = 2) ∧
    (PowerManager.Loop ⟨[⟨2, 1000, 10⟩], [⟨2, true⟩], 2, 10, WKSource.wakeUp_none⟩
        20 WKSource.wakeUp_none).1.domains[0]? = some ⟨2, 1000, 10⟩ :=
  C5_hold_suppresses_expiry.1
    ⟨[⟨2, 1000, 10⟩], [⟨2, true⟩], 2, 10, WKSource.wakeUp_none⟩ 20
    WKSource.wakeUp_none 0 ⟨2, true⟩ (by decide) (by decide) 0 ⟨2, 1000, 10⟩
    (by decide) (by decide) (by decide) (by decide)

/-! ### Event-shape lemmas -/

theorem offCallbackEvents_shape (ps nps : Nat) :
    ∀ (ss : List PowerSubscriber) (k : Nat),
      ∀ e ∈ offCallbackEvents ps nps ss k, ∃ j, e = PMEvent.pwrOff j := by
  intro ss
  induction ss with
  | nil => intro k e he; simp [offCallbackEvents] at he
  | cons s rest ih =>
    intro k e he
    by_cases h : s.subscribedDomains &&& ps = s.subscribedDomains ∧
        s.subscribedDomains &&& nps ≠ s.subscribedDomains
    · rw [offCallbackEvents, if_pos h] at he
      rcases List.mem_cons.mp he with he | he
      · exact ⟨k, he⟩
      · exact ih (k + 1) e he
    · rw [offCallbackEvents, if_neg h] at he
      exact ih (k + 1) e he

theorem onCallbackEvents_shape (ps : Nat) :
    ∀ (ss : List PowerSubscriber) (k : Nat),
      ∀ e ∈ onCallbackEvents ps ss k, ∃ j, e = PMEvent.pwrOn j := by
  intro ss
  induction ss with
  | nil => intro k e he; simp [onCallbackEvents] at he
  | cons s rest ih =>
    intro k e he
    by_cases h : s.IsOn ps = true
    · rw [onCallbackEvents, if_pos h] at he
      rcases List.mem_cons.mp he with he | he
      · exact ⟨k, he⟩
      · exact ih (k + 1) e he
    · rw [onCallbackEvents, if_neg h] at he
      exact ih (k + 1) e he

theorem allOffEvents_shape :
    ∀ (ss : List PowerSubscriber) (k : Nat),
      ∀ e ∈ allOffEvents ss k, ∃ j, e = PMEvent.pwrOff j := by
  intro ss
  induction ss with
  | nil => intro k e he; simp [allOffEvents] at he
  | cons s rest ih =>
    intro k e he
    rw [allOffEvents] at he
    rcases List.mem_cons.mp he with he | he
    · exact ⟨k, he⟩
    · exact ih (k + 1) e he

theorem turnOffPhase_events_shape (nps : Nat) :
    ∀ (ds : List PowerDomain) (ps : Nat),
      ∀ e ∈ (turnOffPhase nps ds ps).events, ∃ id, e = PMEvent.setPower id false := by
  intro ds
  induction ds with
  | nil => intro ps e he; simp [turnOffPhase] at he
  | cons d rest ih =>
    intro ps e he
    by_cases h : d.id &&& ps ≠ 0 ∧ d.id &&& u8not nps ≠ 0
    · rw [turnOffPhase, if_pos h] at he
      rcases List.mem_cons.mp he with he | he
      · exact ⟨d.id, he⟩
      · exact ih _ e he
    · rw [turnOffPhase, if_neg h] at he
      exact ih _ e he

theorem activateAux_events_shape (m : Nat) :
    ∀ (ds : List PowerDomain) (ps : Nat),
      ∀ e ∈ (activateAux m ds ps).events, ∃ id, e = PMEvent.setPower id true := by
  intro ds
  induction ds with
  | nil => intro ps e he; simp [activateAux] at he
  | cons d rest ih =>
    intro ps e he
    by_cases h : d.id &&& m ≠ 0 ∧ d.id &&& ps = 0
    · rw [activateAux, if_pos h] at he
      rcases List.mem_cons.mp he with he | he
      · exact ⟨d.id, he⟩
      · exact ih _ e he
    · rw [activateAux, if_neg h] at he
      exact ih _ e he

theorem forceAllOff_events_shape :
    ∀ (ds : List PowerDomain) (ps : Nat),
      ∀ e ∈ (forceAllOff ds ps).events, ∃ id, e = PMEvent.setPower id false := by
  intro ds
  induction ds with
  | nil => intro ps e he; simp [forceAllOff] at he
  | cons d rest ih =>
    intro ps e he
    by_cases h : d.id &&& ps ≠ 0
    · rw [forceAllOff, if_pos h] at he
      rcases List.mem_cons.mp he with he | he
      · exact ⟨d.id, he⟩
      · exact ih _ e he
    · rw [forceAllOff, if_neg h] at he
      exact ih _ e he

theorem Activate_events_shape (st : PMState) (m : Nat) :
    ∀ e ∈ (PowerManager.Activate st m).events,
      (∃ id, e = PMEvent.setPower id true) ∨ (∃ j, e = PMEvent.pwrOn j) := by
  intro e he
  unfold PowerManager.Activate at he
  by_cases hd : st.domains = []
  · rw [if_pos hd] at he
    simp at he
  · rw [if_neg hd] at he
    by_cases hq : st.subscribers = [] ∨ (activateAux m st.domains st.powerState).retVal = false
    · simp only [if_pos hq] at he
      exact Or.inl (activateAux_events_shape m st.domains st.powerState e he)
    · simp only [if_neg hq] at he
      rcases List.mem_append.mp he with he | he
      · exact Or.inl (activateAux_events_shape m st.domains st.powerState e he)
      · exact Or.inr (onCallbackEvents_shape _ _ _ e he)

/-! ### Counting off-callbacks (claim C2) -/

/-- The condition under which step 3 of the loop fires a subscriber's
`PwrOff_Callback`. -/
def offCond (ps nps : Nat) (s : PowerSubscriber) : Prop :=
  s.subscribedDomains &&& ps = s.subscribedDomains ∧
    s.subscribedDomains &&& nps ≠ s.subscribedDomains

instance (ps nps : Nat) (s : PowerSubscriber) : Decidable (offCond ps nps s) := by
  unfold offCond
  infer_instance

theorem count_offCallbackEvents_lt (ps nps : Nat) :
    ∀ (ss : List PowerSubscriber) (k j : Nat), j < k →
      (offCallbackEvents ps nps ss k).count (PMEvent.pwrOff j) = 0 := by
  intro ss
  induction ss with
  | nil => intro k j _; rfl
  | cons s rest ih =>
    intro k j hj
    by_cases h : s.subscribedDomains &&& ps = s.subscribedDomains ∧
        s.subscribedDomains &&& nps ≠ s.subscribedDomains
    · rw [offCallbackEvents, if_pos h, List.count_cons]
      rw [ih (k + 1) j (Nat.lt_succ_of_lt hj)]
      have hkj : ¬(k = j) := by omega
      simp [hkj]
    · rw [offCallbackEvents, if_neg h]
      exact ih (k + 1) j (Nat.lt_succ_of_lt hj)

theorem count_offCallbackEvents (ps nps : Nat) :
    ∀ (ss : List PowerSubscriber) (k m : Nat),
      (offCallbackEvents ps nps ss k).count (PMEvent.pwrOff (k + m))
        = match ss[m]? with
          | none => 0
          | some s => if offCond ps nps s then 1 else 0 := by
  intro ss
  induction ss with
  | nil => intro k m; rfl
  | cons s rest ih =>
    intro k m
    by_cases h : s.subscribedDomains &&& ps = s.subscribedDomains ∧
        s.subscribedDomains &&& nps ≠ s.subscribedDomains
    · rw [offCallbackEvents, if_pos h, List.count_cons]
      cases m with
      | zero =>
        rw [count_offCallbackEvents_lt ps nps rest (k + 1) (k + 0) (by omega)]
        simp [offCond, h]
      | succ m' =>
        have hsh : k + (m' + 1) = (k + 1) + m' := by omega
        rw [hsh, ih (k + 1) m']
        have hne : ¬(k = k + 1 + m') := by omega
        simp only [List.getElem?_cons_succ]
        simp [hne]
    · rw [offCallbackEvents, if_neg h]
      cases m with
      | zero =>
        rw [count_offCallbackEvents_lt ps nps rest (k + 1) (k + 0) (by omega)]
        simp [offCond, h]
      | succ m' =>
        have heq : k + (m' + 1) = (k + 1) + m' := by omega
        rw [heq, ih (k + 1) m']
        simp only [List.getElem?_cons_succ]

theorem count_pwrOff_of_shape {l : List PMEvent} (j : Nat)
    (h : ∀ e ∈ l, ∀ j', e ≠ PMEvent.pwrOff j') :
    l.count (PMEvent.pwrOff j) = 0 := by
  rw [List.count_eq_zero]
  intro hmem
  exact h _ hmem j rfl

/-- C2: in a tick where some set of domains transitions off (the proposed
next state differs from the current one), every subscriber at position `j`
of the traversal list receives its `PwrOff_Callback` exactly once iff its
whole mask is satisfied by the current power state and not by the proposed
next state (and receives none otherwise); and every off-callback of the tick
fires strictly before every `SetPower(false)` of the tick. -/
theorem C2_off_callbacks_before_poweroff (st : PMState) (timeNow : Nat)
    (wake : WKSource) (hd : st.domains ≠ [])
    (hrun : u32sub timeNow st.lastLoopTime < PWRMAN_MINTIMEOUT)
    (htrans : (checkPhase (u32sub timeNow st.lastLoopTime)
        (st.powerState &&& u8not (heldMask st.subscribers)) st.domains
        st.powerState).nextPowerState ≠ st.powerState) :
    (∀ (j : Nat) (s : PowerSubscriber), st.subscribers[j]? = some s →
        (PowerManager.Loop st timeNow wake).2.count (PMEvent.pwrOff j)
          = if offCond st.powerState
                (checkPhase (u32sub timeNow st.lastLoopTime)
                  (st.powerState &&& u8not (heldMask st.subscribers)) st.domains
                  st.powerState).nextPowerState s
            then 1 else 0) ∧
    (∃ l1 l2, (PowerManager.Loop st timeNow wake).2 = l1 ++ l2 ∧
        (∀ e ∈ l1, ∀ id, e ≠ PMEvent.setPower id false) ∧
        (∀ e ∈ l2, ∀ j, e ≠ PMEvent.pwrOff j)) := by
  have hnle : ¬ PWRMAN_MINTIMEOUT ≤ u32sub timeNow st.lastLoopTime :=
    Nat.not_le.mpr hrun
  have hev : ∃ rest, (PowerManager.Loop st timeNow wake).2
      = offCallbackEvents st.powerState
          (checkPhase (u32sub timeNow st.lastLoopTime)
            (st.powerState &&& u8not (heldMask st.subscribers)) st.domains
            st.powerState).nextPowerState st.subscribers 0 ++ rest ∧
      ∀ e ∈ rest, ∀ j, e ≠ PMEvent.pwrOff j := by
    by_cases hzero : (turnOffPhase
        (checkPhase (u32sub timeNow st.lastLoopTime)
          (st.powerState &&& u8not (heldMask st.subscribers)) st.domains
          st.powerState).nextPowerState
        (checkPhase (u32sub timeNow st.lastLoopTime)
          (st.powerState &&& u8not (heldMask st.subscribers)) st.domains
          st.powerState).domains st.powerState).powerState = 0
    · simp only [PowerManager.Loop, if_neg hd, hnle, if_false, htrans,
        ite_false, ne_eq, hzero, not_true_eq_false]
      rw [List.append_assoc, List.append_assoc]
      refine ⟨_, rfl, ?_⟩
      intro e he j
      rcases List.mem_append.mp he with he | he
      · obtain ⟨id, rfl⟩ := turnOffPhase_events_shape _ _ _ e he
        intro hc
        cases hc
      · rcases List.mem_cons.mp he with he | he
        · subst he
          intro hc
          cases hc
        · rcases Activate_events_shape _ _ e he with ⟨id, rfl⟩ | ⟨jj, rfl⟩
          · intro hc
            cases hc
          · intro hc
            cases hc
    · simp only [PowerManager.Loop, if_neg hd, hnle, if_false, htrans,
        ite_false, ne_eq, hzero, not_false_eq_true, if_true]
      refine ⟨_, rfl, ?_⟩
      intro e he j
      obtain ⟨id, rfl⟩ := turnOffPhase_events_shape _ _ _ e he
      intro hc
      cases hc
  obtain ⟨rest, hev, hrest⟩ := hev
  constructor
  · intro j s hj
    rw [hev, List.count_append]
    have h0 := count_offCallbackEvents st.powerState
      (checkPhase (u32sub timeNow st.lastLoopTime)
        (st.powerState &&& u8not (heldMask st.subscribers)) st.domains
        st.powerState).nextPowerState st.subscribers 0 j
    simp only [Nat.zero_add, hj] at h0
    rw [h0, count_pwrOff_of_shape j hrest, Nat.add_zero]
  · refine ⟨_, rest, hev, ?_, hrest⟩
    intro e he id
    obtain ⟨jj, rfl⟩ := offCallbackEvents_shape _ _ _ _ e he
    intro hc
    cases hc

/-- Witness for C2: a one-domain, one-subscriber tick whose only armed
domain expires; the subscriber's mask is satisfied before and not after, so
its off-callback fires exactly once, before the `SetPower(false)`. -/
theorem C2_witness :
    ((PowerManager.Loop ⟨[⟨2, 1000, 10⟩], [⟨2, false⟩], 2, 0, WKSource.wakeUp_none⟩
        10 WKSource.wakeUp_none).2.count (PMEvent.pwrOff 0)
      = if offCond 2
            (checkPhase (u32sub 10 0) (2 &&& u8not (heldMask [⟨2, false⟩]))
              [⟨2, 1000, 10⟩] 2).nextPowerState ⟨2, false⟩
        then 1 else 0) ∧
    (∃ l1 l2, (PowerManager.Loop ⟨[⟨2, 1000, 10⟩], [⟨2, false⟩], 2, 0,
        WKSource.wakeUp_none⟩ 10 WKSource.wakeUp_none).2 = l1 ++ l2 ∧
      (∀ e ∈ l1, ∀ id, e ≠ PMEvent.setPower id false) ∧
      (∀ e ∈ l2, ∀ j, e ≠ PMEvent.pwrOff j)) := by
  have h := C2_off_callbacks_before_poweroff
    ⟨[⟨2, 1000, 10⟩], [⟨2, false⟩], 2, 0, WKSource.wakeUp_none⟩ 10
    WKSource.wakeUp_none (by decide) (by decide) (by decide)
  exact ⟨h.1 0 ⟨2, false⟩ (by decide), h.2⟩

/-! ### The sleep transition (claim C8) -/

/-- The "all domains on, timers at the 20 ms minimum" state used by the
idle-to-sleep run: the full boot registry, powered, last tick at 100 ms. -/
def c8start : PMState :=
  ⟨[⟨1, 60000, 20⟩, ⟨2, 1000, 20⟩, ⟨4, 1000, 20⟩, ⟨8, 50, 20⟩, ⟨16, 1000, 20⟩],
    [], 31, 100, WKSource.wakeUp_none⟩

/-- The state after one 10 ms tick on `c8start`: timers decremented to 10. -/
def c8mid : PMState :=
  ⟨[⟨1, 60000, 10⟩, ⟨2, 1000, 10⟩, ⟨4, 1000, 10⟩, ⟨8, 50, 10⟩, ⟨16, 1000, 10⟩],
    [], 31, 110, WKSource.wakeUp_none⟩

/-- C8: the Sleep Transition is entered only when the live power state is
empty — whenever a tick emits `sleepEntry`, the live power state after the
tick's power-off step is 0; and in the concrete idle-to-sleep run below,
starting from all domains on with no holds, advancing time past every
timeout empties the live state and triggers exactly one Sleep-Transition
entry, waking with a button interrupt yields `wakeUpSource = wakeUp_button`
(a no-interrupt wake leaves the reset value `wakeUp_none`), and exactly the
startup domain mask `PWRMAN_STARTON` is re-activated. -/
theorem C8_sleep_only_when_empty :
    (∀ (st : PMState) (timeNow : Nat) (wake : WKSource),
      PMEvent.sleepEntry ∈ (PowerManager.Loop st timeNow wake).2 →
        (turnOffPhase
          (checkPhase (u32sub timeNow st.lastLoopTime)
            (st.powerState &&& u8not (heldMask st.subscribers)) st.domains
            st.powerState).nextPowerState
          (checkPhase (u32sub timeNow st.lastLoopTime)
            (st.powerState &&& u8not (heldMask st.subscribers)) st.domains
            st.powerState).domains st.powerState).powerState = 0) ∧
    (PowerManager.Loop c8start 110 WKSource.wakeUp_button).2 = [] ∧
    (PowerManager.Loop c8start 110 WKSource.wakeUp_button).1 = c8mid ∧
    (PowerManager.Loop c8mid 120 WKSource.wakeUp_button).2
      = [PMEvent.setPower 1 false, PMEvent.setPower 2 false,
          PMEvent.setPower 4 false, PMEvent.setPower 8 false,
          PMEvent.setPower 16 false, PMEvent.sleepEntry, PMEvent.setPower 1 true] ∧
    (PowerManager.Loop c8mid 120 WKSource.wakeUp_button).2.count PMEvent.sleepEntry
      = 1 ∧
    (PowerManager.Loop c8mid 120 WKSource.wakeUp_button).1.powerState
      = PWRMAN_STARTON ∧
    (PowerManager.Loop c8mid 120 WKSource.wakeUp_button).1.wakeUpSource
      = WKSource.wakeUp_button ∧
    (PowerManager.Loop c8mid 120 WKSource.wakeUp_none).1.wakeUpSource
      = WKSource.wakeUp_none := by
  refine ⟨?_, by decide, by decide, by decide, by decide, by decide, by decide,
    by decide⟩
  intro st timeNow wake hmem
  by_cases hd : st.domains = []
  · simp [PowerManager.Loop, hd] at hmem
  · by_cases hskip : PWRMAN_MINTIMEOUT ≤ u32sub timeNow st.lastLoopTime
    · simp [PowerManager.Loop, hd, hskip] at hmem
    · by_cases heq : (checkPhase (u32sub timeNow st.lastLoopTime)
          (st.powerState &&& u8not (heldMask st.subscribers)) st.domains
          st.powerState).nextPowerState = st.powerState
      · simp [PowerManager.Loop, hd, hskip, heq] at hmem
      · by_cases hzero : (turnOffPhase
            (checkPhase (u32sub timeNow st.lastLoopTime)
              (st.powerState &&& u8not (heldMask st.subscribers)) st.domains
              st.powerState).nextPowerState
            (checkPhase (u32sub timeNow st.lastLoopTime)
              (st.powerState &&& u8not (heldMask st.subscribers)) st.domains
              st.powerState).domains st.powerState).powerState = 0
        · exact hzero
        · exfalso
          simp only [PowerManager.Loop, if_neg hd, hskip, if_false, heq,
            ite_false, ne_eq, hzero, not_false_eq_true, if_true] at hmem
          rcases List.mem_append.mp hmem with hmem | hmem
          · obtain ⟨jj, hc⟩ := offCallbackEvents_shape _ _ _ _ _ hmem
            cases hc
          · obtain ⟨id, hc⟩ := turnOffPhase_events_shape _ _ _ _ hmem
            cases hc

/-- Witness for C8's universally quantified part: the expiring tick of the
idle-to-sleep run does emit `sleepEntry`, and the theorem yields that the
live power state at sleep entry is 0. -/
theorem C8_witness :
    (turnOffPhase
      (checkPhase (u32sub 120 c8mid.lastLoopTime)
        (c8mid.powerState &&& u8not (heldMask c8mid.subscribers)) c8mid.domains
        c8mid.powerState).nextPowerState
      (checkPhase (u32sub 120 c8mid.lastLoopTime)
        (c8mid.powerState &&& u8not (heldMask c8mid.subscribers)) c8mid.domains
        c8mid.powerState).domains c8mid.powerState).powerState = 0 :=
  C8_sleep_only_when_empty.1 c8mid 120 WKSource.wakeUp_button (by decide)

/-! ### The administrative deep-sleep override (claim C9) -/

theorem and_pow_eq_zero_of_testBit (x i : Nat) (h : x.testBit i = false) :
    x &&& 2 ^ i = 0 := by
  rw [Nat.land_comm]
  exact pow_and_eq_zero_of_testBit x i h

theorem count_eq_zero_of_shape {l : List PMEvent} {a : PMEvent}
    (h : ∀ e ∈ l, e ≠ a) : l.count a = 0 :=
  List.count_eq_zero.mpr (fun hm => h _ hm rfl)

theorem forceAllOff_ps_mono :
    ∀ (ds : List PowerDomain) (ps i : Nat),
      (forceAllOff ds ps).powerState.testBit i = true → ps.testBit i = true := by
  intro ds
  induction ds with
  | nil => intro ps i h; exact h
  | cons d rest ih =>
    intro ps i h
    by_cases hc : d.id &&& ps ≠ 0
    · rw [forceAllOff, if_pos hc] at h
      have hh := ih _ i h
      rw [Nat.testBit_and] at hh
      exact (Bool.and_eq_true_iff.mp hh).1
    · rw [forceAllOff, if_neg hc] at h
      exact ih _ i h

theorem forceAllOff_clears_bits :
    ∀ (ds : List PowerDomain), (∀ d ∈ ds, SingleBit d.id) →
      ∀ ps, ∀ d ∈ ds, (forceAllOff ds ps).powerState &&& d.id = 0 := by
  intro ds
  induction ds with
  | nil => intro _ ps d hd; exact absurd hd (List.not_mem_nil d)
  | cons d0 rest ih =>
    intro hall ps d hd
    have hrest : ∀ d' ∈ rest, SingleBit d'.id :=
      fun d' hd' => hall d' (List.mem_cons_of_mem _ hd')
    rcases List.mem_cons.mp hd with rfl | hd
    · obtain ⟨j, hj8, hdj⟩ := hall d (List.mem_cons_self d rest)
      rw [hdj]
      apply and_pow_eq_zero_of_testBit
      by_cases hc : d.id &&& ps ≠ 0
      · rw [forceAllOff, if_pos hc]
        by_contra hb
        rw [Bool.not_eq_false] at hb
        have := forceAllOff_ps_mono rest _ j hb
        rw [hdj, testBit_and_u8not_pow _ _ _ hj8] at this
        simp at this
      · rw [forceAllOff, if_neg hc]
        by_contra hb
        rw [Bool.not_eq_false] at hb
        have hmono := forceAllOff_ps_mono rest ps j hb
        rw [not_not, hdj] at hc
        have hps : ps.testBit j = false := by
          by_contra hbb
          rw [Bool.not_eq_false] at hbb
          exact (pow_and_ne_zero_iff ps j).mpr hbb hc
        rw [hps] at hmono
        exact Bool.false_ne_true hmono
    · by_cases hc : d0.id &&& ps ≠ 0
      · rw [forceAllOff, if_pos hc]
        exact ih hrest _ d hd
      · rw [forceAllOff, if_neg hc]
        exact ih hrest _ d hd

theorem forceAllOff_timers_zero :
    ∀ (ds : List PowerDomain), (∀ d ∈ ds, SingleBit d.id) →
      (ds.map PowerDomain.id).Nodup →
      ∀ ps, (∀ d ∈ ds, d.id &&& ps = 0 → d.countdownTimer = 0) →
        ∀ d' ∈ (forceAllOff ds ps).domains, d'.countdownTimer = 0 := by
  intro ds
  induction ds with
  | nil => intro _ _ ps _ d' hd'; simp [forceAllOff] at hd'
  | cons d0 rest ih =>
    intro hall hnodup ps h0 d' hd'
    have hrest : ∀ d ∈ rest, SingleBit d.id :=
      fun d hd => hall d (List.mem_cons_of_mem _ hd)
    rw [List.map_cons, List.nodup_cons] at hnodup
    obtain ⟨j, hj8, hdj⟩ := hall d0 (List.mem_cons_self d0 rest)
    by_cases hc : d0.id &&& ps ≠ 0
    · rw [forceAllOff, if_pos hc] at hd'
      rcases List.mem_cons.mp hd' with rfl | hd'
      · rfl
      · refine ih hrest hnodup.2 _ ?_ d' hd'
        intro d hd hz
        apply h0 d (List.mem_cons_of_mem _ hd)
        obtain ⟨i, hi8, hdi⟩ := hrest d hd
        have hij : ¬(j = i) := by
          intro hji
          apply hnodup.1
          rw [List.mem_map]
          exact ⟨d, hd, by rw [hdi, hdj, hji]⟩
        rw [hdi]
        apply pow_and_eq_zero_of_testBit
        rw [hdi, hdj] at hz
        by_contra hb
        rw [Bool.not_eq_false] at hb
        have : (2 : Nat) ^ i &&& (ps &&& u8not (2 ^ j)) ≠ 0 := by
          rw [Nat.land_comm]
          apply (and_pow_ne_zero_iff _ i).mpr
          rw [testBit_and_u8not_pow _ _ _ hi8, hb]
          simp [hij]
        exact this hz
    · rw [forceAllOff, if_neg hc] at hd'
      rcases List.mem_cons.mp hd' with rfl | hd'
      · exact h0 d' (List.mem_cons_self d' rest) (not_not.mp hc)
      · refine ih hrest hnodup.2 ps ?_ d' hd'
        intro d hd hz
        exact h0 d (List.mem_cons_of_mem _ hd) hz

theorem count_allOffEvents_lt :
    ∀ (ss : List PowerSubscriber) (k j : Nat), j < k →
      (allOffEvents ss k).count (PMEvent.pwrOff j) = 0 := by
  intro ss
  induction ss with
  | nil => intro k j _; rfl
  | cons s rest ih =>
    intro k j hj
    rw [allOffEvents, List.count_cons, ih (k + 1) j (Nat.lt_succ_of_lt hj)]
    have hkj : ¬(k = j) := by omega
    simp [hkj]

theorem count_allOffEvents :
    ∀ (ss : List PowerSubscriber) (k m : Nat),
      (allOffEvents ss k).count (PMEvent.pwrOff (k + m))
        = if m < ss.length then 1 else 0 := by
  intro ss
  induction ss with
  | nil => intro k m; simp [allOffEvents]
  | cons s rest ih =>
    intro k m
    rw [allOffEvents, List.count_cons]
    cases m with
    | zero =>
      rw [count_allOffEvents_lt rest (k + 1) (k + 0) (by omega)]
      simp
    | succ m' =>
      have hsh : k + (m' + 1) = (k + 1) + m' := by omega
      rw [hsh, ih (k + 1) m']
      have hne : ¬(k = k + 1 + m') := by omega
      simp [hne, Nat.succ_lt_succ_iff]

theorem count_pwrOff_Activate (st : PMState) (m j : Nat) :
    (PowerManager.Activate st m).events.count (PMEvent.pwrOff j) = 0 := by
  apply count_pwrOff_of_shape
  intro e he j'
  rcases Activate_events_shape _ _ e he with ⟨id, rfl⟩ | ⟨jj, rfl⟩ <;>
    (intro hcon; cases hcon)

theorem count_sleep_Activate (st : PMState) (m : Nat) :
    (PowerManager.Activate st m).events.count PMEvent.sleepEntry = 0 := by
  apply count_eq_zero_of_shape
  intro e he
  rcases Activate_events_shape _ _ e he with ⟨id, rfl⟩ | ⟨jj, rfl⟩ <;>
    (intro hcon; cases hcon)

theorem count_pwrOff_forceAllOff (ds : List PowerDomain) (ps j : Nat) :
    (forceAllOff ds ps).events.count (PMEvent.pwrOff j) = 0 := by
  apply count_pwrOff_of_shape
  intro e he j'
  obtain ⟨id, rfl⟩ := forceAllOff_events_shape _ _ e he
  intro hcon
  cases hcon

theorem count_sleep_forceAllOff (ds : List PowerDomain) (ps : Nat) :
    (forceAllOff ds ps).events.count PMEvent.sleepEntry = 0 := by
  apply count_eq_zero_of_shape
  intro e he
  obtain ⟨id, rfl⟩ := forceAllOff_events_shape _ _ e he
  intro hcon
  cases hcon

theorem count_sleep_allOffEvents (ss : List PowerSubscriber) (k : Nat) :
    (allOffEvents ss k).count PMEvent.sleepEntry = 0 := by
  apply count_eq_zero_of_shape
  intro e he
  obtain ⟨jj, rfl⟩ := allOffEvents_shape _ _ e he
  intro hcon
  cases hcon

/-- C9: the `deepsleep` command bypasses timeout arbitration: when the
external safety precondition (`SaberBase::IsOn()`) is false and domains are
registered, it fires every subscriber's off-callback exactly once, forces
every registered domain off (its power-state bit cleared and — given that
domains that are already off hold no stale timer, as in every reachable
state — every countdown timer zeroed) and performs the Sleep Transition
synchronously, exactly once; when the precondition is asserted it refuses
and changes nothing. -/
theorem C9_deepsleep_override (st : PMState) (wake : WKSource)
    (hd : st.domains ≠ [])
    (hall : ∀ d ∈ st.domains, SingleBit d.id)
    (hnodup : (st.domains.map PowerDomain.id).Nodup)
    (h0 : ∀ d ∈ st.domains, d.id &&& st.powerState = 0 → d.countdownTimer = 0) :
    cmdDeepSleep st true wake = (st, []) ∧
    (∀ j, j < st.subscribers.length →
      (cmdDeepSleep st false wake).2.count (PMEvent.pwrOff j) = 1) ∧
    (∀ d' ∈ (forceAllOff st.domains st.powerState).domains,
      d'.countdownTimer = 0) ∧
    (∀ d ∈ st.domains,
      (forceAllOff st.domains st.powerState).powerState &&& d.id = 0) ∧
    (cmdDeepSleep st false wake).2.count PMEvent.sleepEntry = 1 := by
  have hev : (cmdDeepSleep st false wake).2
      = ((forceAllOff st.domains st.powerState).events
          ++ allOffEvents st.subscribers 0 ++ [PMEvent.sleepEntry])
        ++ (PowerManager.Activate
            { domains := (forceAllOff st.domains st.powerState).domains,
              subscribers := st.subscribers,
              powerState := (forceAllOff st.domains st.powerState).powerState,
              lastLoopTime := st.lastLoopTime,
              wakeUpSource := CPU_DeepSleep wake } PWRMAN_STARTON).events := by
    simp [cmdDeepSleep, hd]
  refine ⟨by simp [cmdDeepSleep], ?_, ?_, ?_, ?_⟩
  · intro j hj
    have hc := count_allOffEvents st.subscribers 0 j
    simp only [Nat.zero_add] at hc
    rw [hev]
    simp only [List.count_append, count_pwrOff_Activate, count_pwrOff_forceAllOff,
      hc, if_pos hj]
    simp [List.count_cons]
  · intro d' hd'
    refine forceAllOff_timers_zero st.domains hall hnodup st.powerState ?_ d' hd'
    intro d hdm hz
    exact h0 d hdm hz
  · intro d hdm
    exact forceAllOff_clears_bits st.domains hall st.powerState d hdm
  · rw [hev]
    simp only [List.count_append, count_sleep_Activate, count_sleep_forceAllOff,
      count_sleep_allOffEvents]
    simp [List.count_cons]

/-- Witness for C9: a two-domain state (one on, one off with an unarmed
timer) with one subscriber; the override fires the off-callback once, clears
the bit and the timer, and sleeps exactly once. -/
theorem C9_witness :
    cmdDeepSleep ⟨[⟨1, 60000, 100⟩, ⟨2, 1000, 0⟩], [⟨1, false⟩], 1, 0,
        WKSource.wakeUp_none⟩ true WKSource.wakeUp_button
      = (⟨[⟨1, 60000, 100⟩, ⟨2, 1000, 0⟩], [⟨1, false⟩], 1, 0,
          WKSource.wakeUp_none⟩, []) ∧
    (cmdDeepSleep ⟨[⟨1, 60000, 100⟩, ⟨2, 1000, 0⟩], [⟨1, false⟩], 1, 0,
        WKSource.wakeUp_none⟩ false WKSource.wakeUp_button).2.count
      (PMEvent.pwrOff 0) = 1 ∧
    (∀ d' ∈ (forceAllOff [⟨1, 60000, 100⟩, ⟨2, 1000, 0⟩] 1).domains,
      d'.countdownTimer = 0) ∧
    (cmdDeepSleep ⟨[⟨1, 60000, 100⟩, ⟨2, 1000, 0⟩], [⟨1, false⟩], 1, 0,
        WKSource.wakeUp_none⟩ false WKSource.wakeUp_button).2.count
      PMEvent.sleepEntry = 1 := by
  have h := C9_deepsleep_override
    ⟨[⟨1, 60000, 100⟩, ⟨2, 1000, 0⟩], [⟨1, false⟩], 1, 0, WKSource.wakeUp_none⟩
    WKSource.wakeUp_button (by decide) (by decide) (by decide) (by decide)
  exact ⟨h.1, h.2.1 0 (by decide), h.2.2.1, h.2.2.2.2⟩

/-! ### Trace bookkeeping for the power-state invariant (claim C1) -/

theorem lastSetPower_from (id : Nat) :
    ∀ (ev : List PMEvent) (acc : Option Bool),
      ev.foldl (lastSetStep id) acc
        = match lastSetPower ev id with
          | some b => some b
          | none => acc := by
  intro ev
  induction ev with
  | nil => intro acc; rfl
  | cons e rest ih =>
    intro acc
    rw [List.foldl_cons]
    rw [ih (lastSetStep id acc e)]
    have hrest : lastSetPower (e :: rest) id
        = rest.foldl (lastSetStep id) (lastSetStep id none e) := rfl
    rw [hrest, ih (lastSetStep id none e)]
    cases hL : lastSetPower rest id with
    | some b => rfl
    | none =>
      cases e with
      | setPower i b =>
        by_cases hib : i = id
        · simp [lastSetStep, hib]
        · simp [lastSetStep, hib]
      | pwrOn j => rfl
      | pwrOff j => rfl
      | sleepEntry => rfl

theorem lastSetPower_append (a b : List PMEvent) (id : Nat) :
    lastSetPower (a ++ b) id
      = match lastSetPower b id with
        | some v => some v
        | none => lastSetPower a id := by
  rw [lastSetPower, List.foldl_append]
  exact lastSetPower_from id b (a.foldl (lastSetStep id) none)

theorem updBit_append (a b : List PMEvent) (id : Nat) (x : Bool) :
    updBit (a ++ b) id x = updBit b id (updBit a id x) := by
  unfold updBit
  rw [lastSetPower_append]
  cases lastSetPower b id <;> rfl

theorem lastSetPower_cons (e : PMEvent) (ev : List PMEvent) (id : Nat) :
    lastSetPower (e :: ev) id
      = match lastSetPower ev id with
        | some b => some b
        | none => lastSetStep id none e := by
  have h : lastSetPower (e :: ev) id
      = ev.foldl (lastSetStep id) (lastSetStep id none e) := rfl
  rw [h, lastSetPower_from id ev (lastSetStep id none e)]

theorem lastSetPower_of_no_setPower {ev : List PMEvent}
    (h : ∀ e ∈ ev, ∀ i b, e ≠ PMEvent.setPower i b) (id : Nat) :
    lastSetPower ev id = none := by
  induction ev with
  | nil => rfl
  | cons e rest ih =>
    rw [lastSetPower_cons]
    rw [ih (fun e' he' => h e' (List.mem_cons_of_mem _ he'))]
    cases e with
    | setPower i b => exact absurd rfl (h _ (List.mem_cons_self _ _) i b)
    | pwrOn j => rfl
    | pwrOff j => rfl
    | sleepEntry => rfl

theorem updBit_of_no_setPower {ev : List PMEvent}
    (h : ∀ e ∈ ev, ∀ i b, e ≠ PMEvent.setPower i b) (id : Nat) (x : Bool) :
    updBit ev id x = x := by
  unfold updBit
  rw [lastSetPower_of_no_setPower h]
  rfl

theorem two_pow_ne_of_ne {i j : Nat} (h : j ≠ i) : (2 : Nat) ^ j ≠ 2 ^ i := by
  intro hc
  exact h (Nat.pow_right_injective (by omega) hc)

/-! ### How each domain loop updates one bit of the power state -/

theorem singleBit_testBit_ne {d : PowerDomain} {i : Nat} (hs : SingleBit d.id)
    (hne : d.id ≠ 2 ^ i) : d.id.testBit i = false := by
  obtain ⟨j, hj8, hdj⟩ := hs
  have hji : j ≠ i := by
    intro h
    rw [hdj, h] at hne
    exact hne rfl
  rw [hdj, Nat.testBit_two_pow]
  simp [hji]

theorem activateAux_notmem (m i : Nat) :
    ∀ (ds : List PowerDomain), (∀ d ∈ ds, SingleBit d.id) →
      (∀ d ∈ ds, d.id ≠ 2 ^ i) →
      ∀ ps, (activateAux m ds ps).powerState.testBit i = ps.testBit i ∧
        lastSetPower (activateAux m ds ps).events (2 ^ i) = none := by
  intro ds
  induction ds with
  | nil => intro _ _ ps; exact ⟨rfl, rfl⟩
  | cons d0 rest ih =>
    intro hall hne ps
    have hall' : ∀ d ∈ rest, SingleBit d.id :=
      fun d hd => hall d (List.mem_cons_of_mem _ hd)
    have hne' : ∀ d ∈ rest, d.id ≠ 2 ^ i :=
      fun d hd => hne d (List.mem_cons_of_mem _ hd)
    have hd0 : d0.id ≠ 2 ^ i := hne d0 (List.mem_cons_self _ _)
    have hbit0 : d0.id.testBit i = false :=
      singleBit_testBit_ne (hall d0 (List.mem_cons_self _ _)) hd0
    by_cases hc : d0.id &&& m ≠ 0 ∧ d0.id &&& ps = 0
    · simp only [activateAux, if_pos hc]
      refine ⟨?_, ?_⟩
      · rw [(ih hall' hne' (ps ||| d0.id)).1, Nat.testBit_or, hbit0]
        simp
      · rw [lastSetPower_cons, (ih hall' hne' (ps ||| d0.id)).2]
        simp only [lastSetStep]
        rw [if_neg hd0]
    · simp only [activateAux, if_neg hc]
      exact ih hall' hne' ps

theorem activateAux_bit (m i : Nat) :
    ∀ (ds : List PowerDomain), (∀ d ∈ ds, SingleBit d.id) →
      (ds.map PowerDomain.id).Nodup →
      ∀ ps, (activateAux m ds ps).powerState.testBit i
        = updBit (activateAux m ds ps).events (2 ^ i) (ps.testBit i) := by
  intro ds
  induction ds with
  | nil => intro _ _ ps; rfl
  | cons d0 rest ih =>
    intro hall hnodup ps
    have hall' : ∀ d ∈ rest, SingleBit d.id :=
      fun d hd => hall d (List.mem_cons_of_mem _ hd)
    rw [List.map_cons, List.nodup_cons] at hnodup
    by_cases hc : d0.id &&& m ≠ 0 ∧ d0.id &&& ps = 0
    · simp only [activateAux, if_pos hc]
      by_cases hid : d0.id = 2 ^ i
      · have hnomem : ∀ d ∈ rest, d.id ≠ 2 ^ i := by
          intro d hd hcid
          exact hnodup.1 (List.mem_map.mpr ⟨d, hd, by rw [hcid, ← hid]⟩)
        have hrest := activateAux_notmem m i rest hall' hnomem (ps ||| d0.id)
        rw [hrest.1]
        simp only [updBit]
        rw [lastSetPower_cons, hrest.2]
        simp only [lastSetStep]
        rw [if_pos hid, hid, testBit_or_pow]
        simp
      · have hbit0 : d0.id.testBit i = false :=
          singleBit_testBit_ne (hall d0 (List.mem_cons_self _ _)) hid
        rw [ih hall' hnodup.2 (ps ||| d0.id)]
        simp only [updBit]
        rw [lastSetPower_cons]
        cases hL : lastSetPower (activateAux m rest (ps ||| d0.id)).events (2 ^ i) with
        | some b => rfl
        | none =>
          simp only [lastSetStep]
          rw [if_neg hid]
          simp only [Option.getD_none]
          rw [Nat.testBit_or, hbit0]
          simp
    · simp only [activateAux, if_neg hc]
      exact ih hall' hnodup.2 ps

theorem requestPowerAux_notmem (m i : Nat) :
    ∀ (ds : List PowerDomain), (∀ d ∈ ds, SingleBit d.id) →
      (∀ d ∈ ds, d.id ≠ 2 ^ i) →
      ∀ ps ts, (requestPowerAux m ds ps ts).powerState.testBit i = ps.testBit i ∧
        lastSetPower (requestPowerAux m ds ps ts).events (2 ^ i) = none := by
  intro ds
  induction ds with
  | nil => intro _ _ ps ts; exact ⟨rfl, rfl⟩
  | cons d0 rest ih =>
    intro hall hne ps ts
    have hall' : ∀ d ∈ rest, SingleBit d.id :=
      fun d hd => hall d (List.mem_cons_of_mem _ hd)
    have hne' : ∀ d ∈ rest, d.id ≠ 2 ^ i :=
      fun d hd => hne d (List.mem_cons_of_mem _ hd)
    have hd0 : d0.id ≠ 2 ^ i := hne d0 (List.mem_cons_self _ _)
    have hbit0 : d0.id.testBit i = false :=
      singleBit_testBit_ne (hall d0 (List.mem_cons_self _ _)) hd0
    by_cases hc : d0.id &&& m ≠ 0
    · by_cases hon : d0.id &&& ps = 0
      · cases ts with
        | none =>
          simp only [requestPowerAux, if_pos hc, if_pos hon]
          refine ⟨?_, ?_⟩
          · rw [(ih hall' hne' (ps ||| d0.id) none).1, Nat.testBit_or, hbit0]
            simp
          · rw [lastSetPower_cons, (ih hall' hne' (ps ||| d0.id) none).2]
            simp only [lastSetStep]
            rw [if_neg hd0]
        | some l =>
          simp only [requestPowerAux, if_pos hc, if_pos hon]
          refine ⟨?_, ?_⟩
          · rw [(ih hall' hne' (ps ||| d0.id) (some l.tail)).1, Nat.testBit_or,
              hbit0]
            simp
          · rw [lastSetPower_cons, (ih hall' hne' (ps ||| d0.id) (some l.tail)).2]
            simp only [lastSetStep]
            rw [if_neg hd0]
      · cases ts with
        | none =>
          simp only [requestPowerAux, if_pos hc, if_neg hon]
          exact ih hall' hne' ps none
        | some l =>
          simp only [requestPowerAux, if_pos hc, if_neg hon]
          exact ih hall' hne' ps (some l.tail)
    · simp only [requestPowerAux, if_neg hc]
      exact ih hall' hne' ps ts

theorem requestPowerAux_bit (m i : Nat) :
    ∀ (ds : List PowerDomain), (∀ d ∈ ds, SingleBit d.id) →
      (ds.map PowerDomain.id).Nodup →
      ∀ ps ts, (requestPowerAux m ds ps ts).powerState.testBit i
        = updBit (requestPowerAux m ds ps ts).events (2 ^ i) (ps.testBit i) := by
  intro ds
  induction ds with
  | nil => intro _ _ ps ts; rfl
  | cons d0 rest ih =>
    intro hall hnodup ps ts
    have hall' : ∀ d ∈ rest, SingleBit d.id :=
      fun d hd => hall d (List.mem_cons_of_mem _ hd)
    rw [List.map_cons, List.nodup_cons] at hnodup
    by_cases hc : d0.id &&& m ≠ 0
    · by_cases hon : d0.id &&& ps = 0
      · -- the domain fires: SetPower(true) and its bit is set
        have key : ∀ ts', (requestPowerAux m rest (ps ||| d0.id) ts').powerState.testBit i
            = updBit (PMEvent.setPower d0.id true ::
                (requestPowerAux m rest (ps ||| d0.id) ts').events) (2 ^ i)
                (ps.testBit i) := by
          intro ts'
          by_cases hid : d0.id = 2 ^ i
          · have hnomem : ∀ d ∈ rest, d.id ≠ 2 ^ i := by
              intro d hd hcid
              exact hnodup.1 (List.mem_map.mpr ⟨d, hd, by rw [hcid, ← hid]⟩)
            have hrest := requestPowerAux_notmem m i rest hall' hnomem
              (ps ||| d0.id) ts'
            rw [hrest.1]
            simp only [updBit]
            rw [lastSetPower_cons, hrest.2]
            simp only [lastSetStep]
            rw [if_pos hid, hid, testBit_or_pow]
            simp
          · have hbit0 : d0.id.testBit i = false :=
              singleBit_testBit_ne (hall d0 (List.mem_cons_self _ _)) hid
            rw [ih hall' hnodup.2 (ps ||| d0.id) ts']
            simp only [updBit]
            rw [lastSetPower_cons]
            cases hL : lastSetPower
                (requestPowerAux m rest (ps ||| d0.id) ts').events (2 ^ i) with
            | some b => rfl
            | none =>
              simp only [lastSetStep]
              rw [if_neg hid]
              simp only [Option.getD_none]
              rw [Nat.testBit_or, hbit0]
              simp
        cases ts with
        | none =>
          simp only [requestPowerAux, if_pos hc, if_pos hon]
          exact key none
        | some l =>
          simp only [requestPowerAux, if_pos hc, if_pos hon]
          exact key (some l.tail)
      · cases ts with
        | none =>
          simp only [requestPowerAux, if_pos hc, if_neg hon]
          exact ih hall' hnodup.2 ps none
        | some l =>
          simp only [requestPowerAux, if_pos hc, if_neg hon]
          exact ih hall' hnodup.2 ps (some l.tail)
    · simp only [requestPowerAux, if_neg hc]
      exact ih hall' hnodup.2 ps ts

theorem turnOffPhase_notmem (nps i : Nat) (hi : i < 8) :
    ∀ (ds : List PowerDomain), (∀ d ∈ ds, SingleBit d.id) →
      (∀ d ∈ ds, d.id ≠ 2 ^ i) →
      ∀ ps, (turnOffPhase nps ds ps).powerState.testBit i = ps.testBit i ∧
        lastSetPower (turnOffPhase nps ds ps).events (2 ^ i) = none := by
  intro ds
  induction ds with
  | nil => intro _ _ ps; exact ⟨rfl, rfl⟩
  | cons d0 rest ih =>
    intro hall hne ps
    have hall' : ∀ d ∈ rest, SingleBit d.id :=
      fun d hd => hall d (List.mem_cons_of_mem _ hd)
    have hne' : ∀ d ∈ rest, d.id ≠ 2 ^ i :=
      fun d hd => hne d (List.mem_cons_of_mem _ hd)
    have hd0 : d0.id ≠ 2 ^ i := hne d0 (List.mem_cons_self _ _)
    obtain ⟨j, hj8, hdj⟩ := hall d0 (List.mem_cons_self _ _)
    have hji : j ≠ i := by
      intro h
      rw [h] at hdj
      exact hd0 hdj
    by_cases hc : d0.id &&& ps ≠ 0 ∧ d0.id &&& u8not nps ≠ 0
    · simp only [turnOffPhase, if_pos hc]
      refine ⟨?_, ?_⟩
      · rw [(ih hall' hne' (ps &&& u8not d0.id)).1, hdj,
          testBit_and_u8not_pow _ _ _ hi]
        simp [hji]
      · rw [lastSetPower_cons, (ih hall' hne' (ps &&& u8not d0.id)).2]
        simp only [lastSetStep]
        rw [if_neg hd0]
    · simp only [turnOffPhase, if_neg hc]
      exact ih hall' hne' ps

theorem turnOffPhase_bit (nps i : Nat) (hi : i < 8) :
    ∀ (ds : List PowerDomain), (∀ d ∈ ds, SingleBit d.id) →
      (ds.map PowerDomain.id).Nodup →
      ∀ ps, (turnOffPhase nps ds ps).powerState.testBit i
        = updBit (turnOffPhase nps ds ps).events (2 ^ i) (ps.testBit i) := by
  intro ds
  induction ds with
  | nil => intro _ _ ps; rfl
  | cons d0 rest ih =>
    intro hall hnodup ps
    have hall' : ∀ d ∈ rest, SingleBit d.id :=
      fun d hd => hall d (List.mem_cons_of_mem _ hd)
    rw [List.map_cons, List.nodup_cons] at hnodup
    by_cases hc : d0.id &&& ps ≠ 0 ∧ d0.id &&& u8not nps ≠ 0
    · simp only [turnOffPhase, if_pos hc]
      by_cases hid : d0.id = 2 ^ i
      · have hnomem : ∀ d ∈ rest, d.id ≠ 2 ^ i := by
          intro d hd hcid
          exact hnodup.1 (List.mem_map.mpr ⟨d, hd, by rw [hcid, ← hid]⟩)
        have hrest := turnOffPhase_notmem nps i hi rest hall' hnomem
          (ps &&& u8not d0.id)
        rw [hrest.1]
        simp only [updBit]
        rw [lastSetPower_cons, hrest.2]
        simp only [lastSetStep]
        rw [if_pos hid, hid, testBit_and_u8not_pow _ _ _ hi]
        simp
      · have hbit0 : d0.id.testBit i = false :=
          singleBit_testBit_ne (hall d0 (List.mem_cons_self _ _)) hid
        obtain ⟨j, hj8, hdj⟩ := hall d0 (List.mem_cons_self _ _)
        have hji : j ≠ i := by
          intro h
          rw [h] at hdj
          exact hid hdj
        rw [ih hall' hnodup.2 (ps &&& u8not d0.id)]
        simp only [updBit]
        rw [lastSetPower_cons]
        cases hL : lastSetPower
            (turnOffPhase nps rest (ps &&& u8not d0.id)).events (2 ^ i) with
        | some b => rfl
        | none =>
          simp only [lastSetStep]
          rw [if_neg hid]
          simp only [Option.getD_none]
          rw [hdj, testBit_and_u8not_pow _ _ _ hi]
          simp [hji]
    · simp only [turnOffPhase, if_neg hc]
      exact ih hall' hnodup.2 ps

theorem forceAllOff_notmem (i : Nat) (hi : i < 8) :
    ∀ (ds : List PowerDomain), (∀ d ∈ ds, SingleBit d.id) →
      (∀ d ∈ ds, d.id ≠ 2 ^ i) →
      ∀ ps, (forceAllOff ds ps).powerState.testBit i = ps.testBit i ∧
        lastSetPower (forceAllOff ds ps).events (2 ^ i) = none := by
  intro ds
  induction ds with
  | nil => intro _ _ ps; exact ⟨rfl, rfl⟩
  | cons d0 rest ih =>
    intro hall hne ps
    have hall' : ∀ d ∈ rest, SingleBit d.id :=
      fun d hd => hall d (List.mem_cons_of_mem _ hd)
    have hne' : ∀ d ∈ rest, d.id ≠ 2 ^ i :=
      fun d hd => hne d (List.mem_cons_of_mem _ hd)
    have hd0 : d0.id ≠ 2 ^ i := hne d0 (List.mem_cons_self _ _)
    obtain ⟨j, hj8, hdj⟩ := hall d0 (List.mem_cons_self _ _)
    have hji : j ≠ i := by
      intro h
      rw [h] at hdj
      exact hd0 hdj
    by_cases hc : d0.id &&& ps ≠ 0
    · simp only [forceAllOff, if_pos hc]
      refine ⟨?_, ?_⟩
      · rw [(ih hall' hne' (ps &&& u8not d0.id)).1, hdj,
          testBit_and_u8not_pow _ _ _ hi]
        simp [hji]
      · rw [lastSetPower_cons, (ih hall' hne' (ps &&& u8not d0.id)).2]
        simp only [lastSetStep]
        rw [if_neg hd0]
    · simp only [forceAllOff, if_neg hc]
      exact ih hall' hne' ps

theorem forceAllOff_bit (i : Nat) (hi : i < 8) :
    ∀ (ds : List PowerDomain), (∀ d ∈ ds, SingleBit d.id) →
      (ds.map PowerDomain.id).Nodup →
      ∀ ps, (forceAllOff ds ps).powerState.testBit i
        = updBit (forceAllOff ds ps).events (2 ^ i) (ps.testBit i) := by
  intro ds
  induction ds with
  | nil => intro _ _ ps; rfl
  | cons d0 rest ih =>
    intro hall hnodup ps
    have hall' : ∀ d ∈ rest, SingleBit d.id :=
      fun d hd => hall d (List.mem_cons_of_mem _ hd)
    rw [List.map_cons, List.nodup_cons] at hnodup
    by_cases hc : d0.id &&& ps ≠ 0
    · simp only [forceAllOff, if_pos hc]
      by_cases hid : d0.id = 2 ^ i
      · have hnomem : ∀ d ∈ rest, d.id ≠ 2 ^ i := by
          intro d hd hcid
          exact hnodup.1 (List.mem_map.mpr ⟨d, hd, by rw [hcid, ← hid]⟩)
        have hrest := forceAllOff_notmem i hi rest hall' hnomem
          (ps &&& u8not d0.id)
        rw [hrest.1]
        simp only [updBit]
        rw [lastSetPower_cons, hrest.2]
        simp only [lastSetStep]
        rw [if_pos hid, hid, testBit_and_u8not_pow _ _ _ hi]
        simp
      · have hbit0 : d0.id.testBit i = false :=
          singleBit_testBit_ne (hall d0 (List.mem_cons_self _ _)) hid
        obtain ⟨j, hj8, hdj⟩ := hall d0 (List.mem_cons_self _ _)
        have hji : j ≠ i := by
          intro h
          rw [h] at hdj
          exact hid hdj
        rw [ih hall' hnodup.2 (ps &&& u8not d0.id)]
        simp only [updBit]
        rw [lastSetPower_cons]
        cases hL : lastSetPower
            (forceAllOff rest (ps &&& u8not d0.id)).events (2 ^ i) with
        | some b => rfl
        | none =>
          simp only [lastSetStep]
          rw [if_neg hid]
          simp only [Option.getD_none]
          rw [hdj, testBit_and_u8not_pow _ _ _ hi]
          simp [hji]
    · simp only [forceAllOff, if_neg hc]
      exact ih hall' hnodup.2 ps

/-! ### The operations preserve the registry's ids -/

theorem ResetTimeout_id (d : PowerDomain) (t : Nat) :
    (d.ResetTimeout t).id = d.id := by
  rw [ResetTimeout_eq_max]

theorem ResetTimeout_timeout (d : PowerDomain) (t : Nat) :
    (d.ResetTimeout t).timeout = d.timeout := by
  rw [ResetTimeout_eq_max]

theorem CheckTimeout_id (d : PowerDomain) (lt : Nat) :
    (d.CheckTimeout lt).2.id = d.id := by
  unfold PowerDomain.CheckTimeout
  split_ifs <;> rfl

theorem updBit_nil (id : Nat) (x : Bool) : updBit [] id x = x := rfl

theorem activateAux_ids (m : Nat) :
    ∀ (ds : List PowerDomain) (ps : Nat),
      (activateAux m ds ps).domains.map PowerDomain.id = ds.map PowerDomain.id := by
  intro ds
  induction ds with
  | nil => intro ps; rfl
  | cons d0 rest ih =>
    intro ps
    by_cases hc : d0.id &&& m ≠ 0 ∧ d0.id &&& ps = 0
    · simp only [activateAux, if_pos hc, List.map_cons, ih, ResetTimeout_id]
    · simp only [activateAux, if_neg hc, List.map_cons, ih]

theorem requestPowerAux_ids (m : Nat) :
    ∀ (ds : List PowerDomain) (ps : Nat) (ts : Option (List Nat)),
      (requestPowerAux m ds ps ts).domains.map PowerDomain.id
        = ds.map PowerDomain.id := by
  intro ds
  induction ds with
  | nil => intro ps ts; rfl
  | cons d0 rest ih =>
    intro ps ts
    by_cases hc : d0.id &&& m ≠ 0
    · by_cases hon : d0.id &&& ps = 0
      · cases ts with
        | none =>
          simp only [requestPowerAux, if_pos hc, if_pos hon, List.map_cons, ih,
            ResetTimeout_id]
        | some l =>
          simp only [requestPowerAux, if_pos hc, if_pos hon, List.map_cons, ih,
            ResetTimeout_id]
      · cases ts with
        | none =>
          simp only [requestPowerAux, if_pos hc, if_neg hon, List.map_cons, ih,
            ResetTimeout_id]
        | some l =>
          simp only [requestPowerAux, if_pos hc, if_neg hon, List.map_cons, ih,
            ResetTimeout_id]
    · simp only [requestPowerAux, if_neg hc, List.map_cons, ih]

theorem checkPhase_ids (lt m : Nat) (ds : List PowerDomain) (nps : Nat) :
    (checkPhase lt m ds nps).domains.map PowerDomain.id
      = ds.map PowerDomain.id := by
  rw [checkPhase_domains, List.map_map]
  apply List.map_congr_left
  intro d _
  by_cases hc : d.id &&& m ≠ 0
  · simp [hc, Function.comp, CheckTimeout_id]
  · simp [hc, Function.comp]

theorem forceAllOff_ids :
    ∀ (ds : List PowerDomain) (ps : Nat),
      (forceAllOff ds ps).domains.map PowerDomain.id = ds.map PowerDomain.id := by
  intro ds
  induction ds with
  | nil => intro ps; rfl
  | cons d0 rest ih =>
    intro ps
    by_cases hc : d0.id &&& ps ≠ 0
    · simp only [forceAllOff, if_pos hc, List.map_cons, ih]
    · simp only [forceAllOff, if_neg hc, List.map_cons, ih]

theorem singleBit_of_ids_eq {ds ds' : List PowerDomain}
    (h : ds'.map PowerDomain.id = ds.map PowerDomain.id)
    (hall : ∀ d ∈ ds, SingleBit d.id) : ∀ d ∈ ds', SingleBit d.id := by
  intro d hd
  have hm : d.id ∈ ds'.map PowerDomain.id := List.mem_map_of_mem _ hd
  rw [h] at hm
  obtain ⟨d0, hd0, hid⟩ := List.mem_map.mp hm
  rw [← hid]
  exact hall d0 hd0

theorem Activate_ids (st : PMState) (m : Nat) :
    (PowerManager.Activate st m).state.domains.map PowerDomain.id
      = st.domains.map PowerDomain.id := by
  unfold PowerManager.Activate
  by_cases hd : st.domains = []
  · simp [hd]
  · rw [if_neg hd]
    by_cases hq : st.subscribers = []
        ∨ (activateAux m st.domains st.powerState).retVal = false
    · simp only [if_pos hq]
      exact activateAux_ids m st.domains st.powerState
    · simp only [if_neg hq]
      exact activateAux_ids m st.domains st.powerState

/-! ### How each operation updates one bit of the power state -/

theorem Activate_bit (st : PMState) (m i : Nat)
    (hall : ∀ d ∈ st.domains, SingleBit d.id)
    (hnodup : (st.domains.map PowerDomain.id).Nodup) :
    (PowerManager.Activate st m).state.powerState.testBit i
      = updBit (PowerManager.Activate st m).events (2 ^ i)
          (st.powerState.testBit i) := by
  unfold PowerManager.Activate
  by_cases hd : st.domains = []
  · simp [hd, updBit_nil]
  · rw [if_neg hd]
    by_cases hq : st.subscribers = []
        ∨ (activateAux m st.domains st.powerState).retVal = false
    · simp only [if_pos hq]
      exact activateAux_bit m i st.domains hall hnodup st.powerState
    · simp only [if_neg hq]
      rw [updBit_append]
      rw [updBit_of_no_setPower (fun e he id b => ?_)]
      · exact activateAux_bit m i st.domains hall hnodup st.powerState
      · obtain ⟨jj, rfl⟩ := onCallbackEvents_shape _ _ _ e he
        intro hcon
        cases hcon

theorem requestPower_bit (st : PMState) (subIdx : Nat) (ts : Option (List Nat))
    (i : Nat) (hall : ∀ d ∈ st.domains, SingleBit d.id)
    (hnodup : (st.domains.map PowerDomain.id).Nodup) :
    (requestPower st subIdx ts).state.powerState.testBit i
      = updBit (requestPower st subIdx ts).events (2 ^ i)
          (st.powerState.testBit i) := by
  unfold requestPower
  cases hsub : st.subscribers[subIdx]? with
  | none => simp [updBit_nil]
  | some sub =>
    simp only
    by_cases hd : st.domains = []
    · simp [hd, updBit_nil]
    · rw [if_neg hd]
      by_cases hr : (requestPowerAux sub.subscribedDomains st.domains
          st.powerState ts).retVal = true
      · simp only [if_pos hr]
        rw [updBit_append]
        rw [updBit_of_no_setPower (fun e he id b => ?_)]
        · exact requestPowerAux_bit sub.subscribedDomains i st.domains hall
            hnodup st.powerState ts
        · rcases List.mem_singleton.mp he with rfl
          intro hcon
          cases hcon
      · simp only [if_neg hr]
        exact requestPowerAux_bit sub.subscribedDomains i st.domains hall
          hnodup st.powerState ts

theorem Loop_bit (st : PMState) (timeNow : Nat) (wake : WKSource) (i : Nat)
    (hi : i < 8) (hall : ∀ d ∈ st.domains, SingleBit d.id)
    (hnodup : (st.domains.map PowerDomain.id).Nodup) :
    (PowerManager.Loop st timeNow wake).1.powerState.testBit i
      = updBit (PowerManager.Loop st timeNow wake).2 (2 ^ i)
          (st.powerState.testBit i) := by
  have hallc : ∀ d ∈ (checkPhase (u32sub timeNow st.lastLoopTime)
      (st.powerState &&& u8not (heldMask st.subscribers)) st.domains
      st.powerState).domains, SingleBit d.id :=
    singleBit_of_ids_eq (checkPhase_ids _ _ _ _) hall
  have hnodupc : ((checkPhase (u32sub timeNow st.lastLoopTime)
      (st.powerState &&& u8not (heldMask st.subscribers)) st.domains
      st.powerState).domains.map PowerDomain.id).Nodup := by
    rw [checkPhase_ids]
    exact hnodup
  by_cases hd : st.domains = []
  · simp [PowerManager.Loop, hd, updBit_nil]
  · by_cases hskip : PWRMAN_MINTIMEOUT ≤ u32sub timeNow st.lastLoopTime
    · simp [PowerManager.Loop, hd, hskip, updBit_nil]
    · by_cases heq : (checkPhase (u32sub timeNow st.lastLoopTime)
          (st.powerState &&& u8not (heldMask st.subscribers)) st.domains
          st.powerState).nextPowerState = st.powerState
      · simp [PowerManager.Loop, hd, hskip, heq, updBit_nil]
      · by_cases hzero : (turnOffPhase
            (checkPhase (u32sub timeNow st.lastLoopTime)
              (st.powerState &&& u8not (heldMask st.subscribers)) st.domains
              st.powerState).nextPowerState
            (checkPhase (u32sub timeNow st.lastLoopTime)
              (st.powerState &&& u8not (heldMask st.subscribers)) st.domains
              st.powerState).domains st.powerState).powerState = 0
        · simp only [PowerManager.Loop, if_neg hd, hskip, if_false, heq,
            ite_false, ne_eq, hzero, not_true_eq_false]
          rw [updBit_append, updBit_append, updBit_append]
          have hsleep : ∀ x, updBit [PMEvent.sleepEntry] (2 ^ i) x = x := by
            intro x
            apply updBit_of_no_setPower
            intro e he id b
            rcases List.mem_singleton.mp he with rfl
            intro hcon
            cases hcon
          have hoffE : ∀ x, updBit (offCallbackEvents st.powerState
              (checkPhase (u32sub timeNow st.lastLoopTime)
                (st.powerState &&& u8not (heldMask st.subscribers)) st.domains
                st.powerState).nextPowerState st.subscribers 0) (2 ^ i) x = x := by
            intro x
            apply updBit_of_no_setPower
            intro e he id b
            obtain ⟨jj, rfl⟩ := offCallbackEvents_shape _ _ _ _ e he
            intro hcon
            cases hcon
          rw [hsleep, hoffE]
          have hoff := turnOffPhase_bit
            (checkPhase (u32sub timeNow st.lastLoopTime)
              (st.powerState &&& u8not (heldMask st.subscribers)) st.domains
              st.powerState).nextPowerState i hi
            (checkPhase (u32sub timeNow st.lastLoopTime)
              (st.powerState &&& u8not (heldMask st.subscribers)) st.domains
              st.powerState).domains hallc hnodupc st.powerState
          rw [hzero] at hoff
          rw [← hoff]
          exact Activate_bit _ PWRMAN_STARTON i hallc hnodupc
        · simp only [PowerManager.Loop, if_neg hd, hskip, if_false, heq,
            ite_false, ne_eq, hzero, not_false_eq_true, if_true]
          rw [updBit_append]
          have hoffE : ∀ x, updBit (offCallbackEvents st.powerState
              (checkPhase (u32sub timeNow st.lastLoopTime)
                (st.powerState &&& u8not (heldMask st.subscribers)) st.domains
                st.powerState).nextPowerState st.subscribers 0) (2 ^ i) x = x := by
            intro x
            apply updBit_of_no_setPower
            intro e he id b
            obtain ⟨jj, rfl⟩ := offCallbackEvents_shape _ _ _ _ e he
            intro hcon
            cases hcon
          rw [hoffE]
          exact turnOffPhase_bit _ i hi _ hallc hnodupc st.powerState

theorem cmdDeepSleep_bit (st : PMState) (saberIsOn : Bool) (wake : WKSource)
    (i : Nat) (hi : i < 8) (hall : ∀ d ∈ st.domains, SingleBit d.id)
    (hnodup : (st.domains.map PowerDomain.id).Nodup) :
    (cmdDeepSleep st saberIsOn wake).1.powerState.testBit i
      = updBit (cmdDeepSleep st saberIsOn wake).2 (2 ^ i)
          (st.powerState.testBit i) := by
  have hallf : ∀ d ∈ (forceAllOff st.domains st.powerState).domains,
      SingleBit d.id :=
    singleBit_of_ids_eq (forceAllOff_ids _ _) hall
  have hnodupf : ((forceAllOff st.domains st.powerState).domains.map
      PowerDomain.id).Nodup := by
    rw [forceAllOff_ids]
    exact hnodup
  cases saberIsOn with
  | true => simp [cmdDeepSleep, updBit_nil]
  | false =>
    by_cases hd : st.domains = []
    · simp [cmdDeepSleep, hd, updBit_nil]
    · simp only [cmdDeepSleep, Bool.false_eq_true, if_false, if_neg hd]
      rw [updBit_append, updBit_append, updBit_append]
      have hsleep : ∀ x, updBit [PMEvent.sleepEntry] (2 ^ i) x = x := by
        intro x
        apply updBit_of_no_setPower
        intro e he id b
        rcases List.mem_singleton.mp he with rfl
        intro hcon
        cases hcon
      have hallE : ∀ x, updBit (allOffEvents st.subscribers 0) (2 ^ i) x = x := by
        intro x
        apply updBit_of_no_setPower
        intro e he id b
        obtain ⟨jj, rfl⟩ := allOffEvents_shape _ _ e he
        intro hcon
        cases hcon
      rw [hsleep, hallE]
      rw [← forceAllOff_bit i hi st.domains hall hnodup st.powerState]
      exact Activate_bit _ PWRMAN_STARTON i hallf hnodupf

theorem requestPower_ids (st : PMState) (subIdx : Nat) (ts : Option (List Nat)) :
    (requestPower st subIdx ts).state.domains.map PowerDomain.id
      = st.domains.map PowerDomain.id := by
  unfold requestPower
  cases hsub : st.subscribers[subIdx]? with
  | none => rfl
  | some sub =>
    simp only
    by_cases hd : st.domains = []
    · simp [hd]
    · rw [if_neg hd]
      by_cases hr : (requestPowerAux sub.subscribedDomains st.domains
          st.powerState ts).retVal = true
      · simp only [if_pos hr]
        exact requestPowerAux_ids _ _ _ _
      · simp only [if_neg hr]
        exact requestPowerAux_ids _ _ _ _

theorem Loop_ids (st : PMState) (timeNow : Nat) (wake : WKSource) :
    (PowerManager.Loop st timeNow wake).1.domains.map PowerDomain.id
      = st.domains.map PowerDomain.id := by
  by_cases hd : st.domains = []
  · simp [PowerManager.Loop, hd]
  · by_cases hskip : PWRMAN_MINTIMEOUT ≤ u32sub timeNow st.lastLoopTime
    · simp [PowerManager.Loop, hd, hskip]
    · by_cases heq : (checkPhase (u32sub timeNow st.lastLoopTime)
          (st.powerState &&& u8not (heldMask st.subscribers)) st.domains
          st.powerState).nextPowerState = st.powerState
      · simp only [PowerManager.Loop, if_neg hd, hskip, if_false, heq, ite_true]
        exact checkPhase_ids _ _ _ _
      · by_cases hzero : (turnOffPhase
            (checkPhase (u32sub timeNow st.lastLoopTime)
              (st.powerState &&& u8not (heldMask st.subscribers)) st.domains
              st.powerState).nextPowerState
            (checkPhase (u32sub timeNow st.lastLoopTime)
              (st.powerState &&& u8not (heldMask st.subscribers)) st.domains
              st.powerState).domains st.powerState).powerState = 0
        · simp only [PowerManager.Loop, if_neg hd, hskip, if_false, heq,
            ite_false, ne_eq, hzero, not_true_eq_false]
          rw [Activate_ids]
          exact checkPhase_ids _ _ _ _
        · simp only [PowerManager.Loop, if_neg hd, hskip, if_false, heq,
            ite_false, ne_eq, hzero, not_false_eq_true, if_true]
          exact checkPhase_ids _ _ _ _

theorem cmdDeepSleep_ids (st : PMState) (saberIsOn : Bool) (wake : WKSource) :
    (cmdDeepSleep st saberIsOn wake).1.domains.map PowerDomain.id
      = st.domains.map PowerDomain.id := by
  cases saberIsOn with
  | true => simp [cmdDeepSleep]
  | false =>
    by_cases hd : st.domains = []
    · simp [cmdDeepSleep, hd]
    · simp only [cmdDeepSleep, Bool.false_eq_true, if_false, if_neg hd]
      rw [Activate_ids]
      exact forceAllOff_ids _ _

theorem runOp_ids (st : PMState) (op : PMOp) :
    (runOp st op).1.domains.map PowerDomain.id = st.domains.map PowerDomain.id := by
  cases op with
  | loop t w => exact Loop_ids st t w
  | activate m => exact Activate_ids st m
  | reqPower j ts => exact requestPower_ids st j ts
  | deepSleepCmd b w => exact cmdDeepSleep_ids st b w

theorem runOp_bit (st : PMState) (op : PMOp) (i : Nat) (hi : i < 8)
    (hall : ∀ d ∈ st.domains, SingleBit d.id)
    (hnodup : (st.domains.map PowerDomain.id).Nodup) :
    (runOp st op).1.powerState.testBit i
      = updBit (runOp st op).2 (2 ^ i) (st.powerState.testBit i) := by
  cases op with
  | loop t w => exact Loop_bit st t w i hi hall hnodup
  | activate m => exact Activate_bit st m i hall hnodup
  | reqPower j ts => exact requestPower_bit st j ts i hall hnodup
  | deepSleepCmd b w => exact cmdDeepSleep_bit st b w i hi hall hnodup

theorem runOp_synced (st : PMState) (op : PMOp) (tr : List PMEvent)
    (hall : ∀ d ∈ st.domains, SingleBit d.id)
    (hnodup : (st.domains.map PowerDomain.id).Nodup)
    (h : BitsSynced st tr) :
    BitsSynced (runOp st op).1 (tr ++ (runOp st op).2) := by
  intro d' hd'
  have hm : d'.id ∈ (runOp st op).1.domains.map PowerDomain.id :=
    List.mem_map_of_mem _ hd'
  rw [runOp_ids] at hm
  obtain ⟨d0, hd0, hid⟩ := List.mem_map.mp hm
  obtain ⟨i, hi8, hdi⟩ := hall d0 hd0
  have hdi' : d'.id = 2 ^ i := by rw [← hid, hdi]
  have hbit := runOp_bit st op i hi8 hall hnodup
  have hold := h d0 hd0
  rw [hdi, and_pow_eq_pow_iff] at hold
  rw [hdi', and_pow_eq_pow_iff, hbit, lastSetPower_append]
  cases hL : lastSetPower (runOp st op).2 (2 ^ i) with
  | some b =>
    simp only [updBit, hL, Option.getD_some]
    constructor
    · intro hb
      rw [hb]
    · intro hsome
      injection hsome
  | none =>
    simp only [updBit, hL, Option.getD_none]
    exact hold

theorem runOps_synced :
    ∀ (ops : List PMOp) (st : PMState) (tr : List PMEvent),
      (∀ d ∈ st.domains, SingleBit d.id) →
      (st.domains.map PowerDomain.id).Nodup →
      BitsSynced st tr →
      BitsSynced (runOps st ops).1 (tr ++ (runOps st ops).2) := by
  intro ops
  induction ops with
  | nil =>
    intro st tr _ _ h
    simpa [runOps] using h
  | cons op rest ih =>
    intro st tr hall hnodup h
    have hall' : ∀ d ∈ (runOp st op).1.domains, SingleBit d.id :=
      singleBit_of_ids_eq (runOp_ids st op) hall
    have hnodup' : ((runOp st op).1.domains.map PowerDomain.id).Nodup := by
      rw [runOp_ids]
      exact hnodup
    have hstep := runOp_synced st op tr hall hnodup h
    have hrec := ih (runOp st op).1 (tr ++ (runOp st op).2) hall' hnodup' hstep
    simpa [runOps, List.append_assoc] using hrec

/-- C1: starting from the initial state (`powerState = 0`, empty trace) and
running any sequence of arbitration ticks, activations, power requests and
`deepsleep` commands over a well-formed registry (distinct single-bit
domain flags), a registered domain's bit is set in `powerState` iff the
most recent `SetPower` call issued on that domain had argument `true`. -/
theorem C1_powerState_tracks_setPower (ds0 : List PowerDomain)
    (ss : List PowerSubscriber) (ops : List PMOp)
    (hall : ∀ d ∈ ds0, SingleBit d.id)
    (hnodup : (ds0.map PowerDomain.id).Nodup) :
    BitsSynced (runOps (initState ds0 ss) ops).1
      (runOps (initState ds0 ss) ops).2 := by
  have h0 : BitsSynced (initState ds0 ss) [] := by
    intro d hd
    obtain ⟨i, hi8, hdi⟩ := hall d hd
    constructor
    · intro hb
      exfalso
      rw [hdi, show (initState ds0 ss).powerState = 0 from rfl,
        Nat.zero_and] at hb
      exact absurd hb.symm (Nat.pos_iff_ne_zero.mp (Nat.pos_pow_of_pos i
        (by omega)))
    · intro hsome
      exact absurd hsome (by simp [lastSetPower])
  have := runOps_synced ops (initState ds0 ss) [] hall hnodup h0
  simpa using this

/-- Witness for C1: the boot registry with one subscriber, run through an
activation, a tick that expires the amplifier, a power request and a
`deepsleep` command. -/
theorem C1_witness :
    BitsSynced
      (runOps (initState bootDomains [⟨10, false⟩])
        [PMOp.activate 31, PMOp.loop 10 WKSource.wakeUp_none,
          PMOp.reqPower 0 (some [40, 40]),
          PMOp.deepSleepCmd false WKSource.wakeUp_button]).1
      (runOps (initState bootDomains [⟨10, false⟩])
        [PMOp.activate 31, PMOp.loop 10 WKSource.wakeUp_none,
          PMOp.reqPower 0 (some [40, 40]),
          PMOp.deepSleepCmd false WKSource.wakeUp_button]).2 :=
  C1_powerState_tracks_setPower bootDomains [⟨10, false⟩]
    [PMOp.activate 31, PMOp.loop 10 WKSource.wakeUp_none,
      PMOp.reqPower 0 (some [40, 40]),
      PMOp.deepSleepCmd false WKSource.wakeUp_button]
    (by decide) (by decide)

/-! ### Timeout-vector consumption order (claim C10) -/

/-- The claim's reading of `RequestPower`'s pointer walk
(`pd->ResetTimeout(*timeout_++)`): one vector entry per subscribed domain,
consumed in domain-list traversal order, an entry of 0 meaning the domain
default. -/
def consumeTimeouts (mask : Nat) : List PowerDomain → List Nat → List PowerDomain
  | [], _ => []
  | d :: rest, ts =>
    if d.id &&& mask ≠ 0 then
      d.ResetTimeout (ts.headD 0) :: consumeTimeouts mask rest ts.tail
    else
      d :: consumeTimeouts mask rest ts

theorem requestPowerAux_domains_consume (m : Nat) :
    ∀ (ds : List PowerDomain) (ps : Nat) (ts : List Nat),
      (requestPowerAux m ds ps (some ts)).domains = consumeTimeouts m ds ts := by
  intro ds
  induction ds with
  | nil => intro ps ts; rfl
  | cons d0 rest ih =>
    intro ps ts
    by_cases hc : d0.id &&& m ≠ 0
    · by_cases hon : d0.id &&& ps = 0
      · simp only [requestPowerAux, if_pos hc, if_pos hon, consumeTimeouts,
          ih (ps ||| d0.id) ts.tail]
      · simp only [requestPowerAux, if_pos hc, if_neg hon, consumeTimeouts,
          ih ps ts.tail]
    · simp only [requestPowerAux, if_neg hc, consumeTimeouts, ih ps ts]

/-- C10: (i) each `PowerDomain` constructor pushes itself at the head of the
`powerman.domains` list, so the traversal order of the boot registry is the
reverse of the construction (registration) order; (ii) a caller-supplied
timeout vector is consumed one `uint32_t` per subscribed domain in traversal
order, a 0 entry applying the domain default — in the concrete run, a
subscriber of SD and AMP passing `{0, 77}` leaves SD (traversed first,
registered later) at its 1000 ms default and AMP (registered earlier) at
77 ms. -/
theorem C10_timeout_vector_consumption :
    bootDomains = constructionOrder.reverse ∧
    bootDomains = [pwrdom_cpu, pwrdom_sd, pwrdom_boost, pwrdom_amp, pwrdom_pixel] ∧
    (∀ (m : Nat) (ds : List PowerDomain) (ps : Nat) (ts : List Nat),
      (requestPowerAux m ds ps (some ts)).domains = consumeTimeouts m ds ts) ∧
    (requestPower (initState bootDomains [⟨10, false⟩]) 0 (some [0, 77])).state.domains
      = [pwrdom_cpu, ⟨2, 1000, 1000⟩, pwrdom_boost, ⟨8, 50, 77⟩, pwrdom_pixel] ∧
    (requestPower (initState bootDomains [⟨10, false⟩]) 0 (some [0, 77])).events
      = [PMEvent.setPower 2 true, PMEvent.setPower 8 true, PMEvent.pwrOn 0] := by
  exact ⟨by decide, by decide, requestPowerAux_domains_consume, by decide, by decide⟩

/-! ### Activation (claim C7) -/

theorem pow_and_eq_zero_iff (x i : Nat) : (2 ^ i &&& x = 0) ↔ x.testBit i = false := by
  constructor
  · intro h
    by_contra hb
    rw [Bool.not_eq_false] at hb
    exact (pow_and_ne_zero_iff x i).mpr hb h
  · exact pow_and_eq_zero_of_testBit x i

theorem cond_or_bit {d d0 : PowerDomain} (hs : SingleBit d.id)
    (hs0 : SingleBit d0.id) (hne : d.id ≠ d0.id) (ps : Nat) :
    (d.id &&& (ps ||| d0.id) = 0) ↔ (d.id &&& ps = 0) := by
  obtain ⟨i, hi8, hdi⟩ := hs
  obtain ⟨j, hj8, hdj⟩ := hs0
  have hij : ¬(j = i) := by
    intro h
    rw [hdi, hdj, h] at hne
    exact hne rfl
  rw [hdi, hdj, pow_and_eq_zero_iff, pow_and_eq_zero_iff, testBit_or_pow]
  simp [hij]

theorem id_and_or_bit {d d0 : PowerDomain} (hs : SingleBit d.id)
    (hs0 : SingleBit d0.id) (hne : d.id ≠ d0.id) (ps : Nat) :
    ((ps ||| d0.id) &&& d.id = d.id) ↔ (ps &&& d.id = d.id) := by
  obtain ⟨i, hi8, hdi⟩ := hs
  obtain ⟨j, hj8, hdj⟩ := hs0
  have hij : ¬(j = i) := by
    intro h
    rw [hdi, hdj, h] at hne
    exact hne rfl
  rw [hdi, hdj, and_pow_eq_pow_iff, and_pow_eq_pow_iff, testBit_or_pow]
  simp [hij]

theorem activateAux_domains (m : Nat) :
    ∀ (ds : List PowerDomain), (∀ d ∈ ds, SingleBit d.id) →
      (ds.map PowerDomain.id).Nodup →
      ∀ ps, (activateAux m ds ps).domains
        = ds.map (fun d =>
            if d.id &&& m ≠ 0 ∧ d.id &&& ps = 0 then d.ResetTimeout 0 else d) := by
  intro ds
  induction ds with
  | nil => intro _ _ ps; rfl
  | cons d0 rest ih =>
    intro hall hnodup ps
    have hall' : ∀ d ∈ rest, SingleBit d.id :=
      fun d hd => hall d (List.mem_cons_of_mem _ hd)
    rw [List.map_cons, List.nodup_cons] at hnodup
    have htrans : ∀ d ∈ rest,
        (if d.id &&& m ≠ 0 ∧ d.id &&& (ps ||| d0.id) = 0
          then d.ResetTimeout 0 else d)
          = (if d.id &&& m ≠ 0 ∧ d.id &&& ps = 0 then d.ResetTimeout 0 else d) := by
      intro d hd
      have hne : d.id ≠ d0.id := by
        intro h
        exact hnodup.1 (List.mem_map.mpr ⟨d, hd, h⟩)
      have hiff := cond_or_bit (hall' d hd) (hall d0 (List.mem_cons_self _ _))
        hne ps
      by_cases h1 : d.id &&& m ≠ 0 ∧ d.id &&& ps = 0
      · rw [if_pos ⟨h1.1, hiff.mpr h1.2⟩, if_pos h1]
      · rw [if_neg (fun hq => h1 ⟨hq.1, hiff.mp hq.2⟩), if_neg h1]
    by_cases hc : d0.id &&& m ≠ 0 ∧ d0.id &&& ps = 0
    · simp only [activateAux, if_pos hc, List.map_cons]
      rw [ih hall' hnodup.2 (ps ||| d0.id)]
      exact congrArg _ (List.map_congr_left htrans)
    · simp only [activateAux, if_neg hc, List.map_cons]
      rw [ih hall' hnodup.2 ps]

theorem activateAux_events (m : Nat) :
    ∀ (ds : List PowerDomain), (∀ d ∈ ds, SingleBit d.id) →
      (ds.map PowerDomain.id).Nodup →
      ∀ ps, (activateAux m ds ps).events
        = (ds.filter (fun d => decide (d.id &&& m ≠ 0 ∧ d.id &&& ps = 0))).map
            (fun d => PMEvent.setPower d.id true) := by
  intro ds
  induction ds with
  | nil => intro _ _ ps; rfl
  | cons d0 rest ih =>
    intro hall hnodup ps
    have hall' : ∀ d ∈ rest, SingleBit d.id :=
      fun d hd => hall d (List.mem_cons_of_mem _ hd)
    rw [List.map_cons, List.nodup_cons] at hnodup
    have htrans : ∀ d ∈ rest,
        decide (d.id &&& m ≠ 0 ∧ d.id &&& (ps ||| d0.id) = 0)
          = decide (d.id &&& m ≠ 0 ∧ d.id &&& ps = 0) := by
      intro d hd
      have hne : d.id ≠ d0.id := by
        intro h
        exact hnodup.1 (List.mem_map.mpr ⟨d, hd, h⟩)
      have hiff := cond_or_bit (hall' d hd) (hall d0 (List.mem_cons_self _ _))
        hne ps
      by_cases h1 : d.id &&& m ≠ 0 ∧ d.id &&& ps = 0
      · rw [decide_eq_true h1, decide_eq_true ⟨h1.1, hiff.mpr h1.2⟩]
      · rw [decide_eq_false h1, decide_eq_false (fun hq => h1 ⟨hq.1, hiff.mp hq.2⟩)]
    by_cases hc : d0.id &&& m ≠ 0 ∧ d0.id &&& ps = 0
    · simp only [activateAux, if_pos hc]
      rw [ih hall' hnodup.2 (ps ||| d0.id), List.filter_congr htrans,
        List.filter_cons, if_pos (decide_eq_true hc), List.map_cons]
    · simp only [activateAux, if_neg hc]
      rw [ih hall' hnodup.2 ps, List.filter_cons, if_neg ?_]
      rw [decide_eq_false hc]
      simp

theorem activateAux_retVal (m : Nat) :
    ∀ (ds : List PowerDomain) (ps : Nat),
      ((activateAux m ds ps).retVal = true
        ↔ ∃ d ∈ ds, d.id &&& m ≠ 0 ∧ d.id &&& ps = 0) := by
  intro ds
  induction ds with
  | nil => intro ps; simp [activateAux]
  | cons d0 rest ih =>
    intro ps
    by_cases hc : d0.id &&& m ≠ 0 ∧ d0.id &&& ps = 0
    · simp only [activateAux, if_pos hc]
      constructor
      · intro _
        exact ⟨d0, List.mem_cons_self _ _, hc⟩
      · intro _
        trivial
    · simp only [activateAux, if_neg hc]
      rw [ih ps]
      constructor
      · rintro ⟨d, hd, hcond⟩
        exact ⟨d, List.mem_cons_of_mem _ hd, hcond⟩
      · rintro ⟨d, hd, hcond⟩
        rcases List.mem_cons.mp hd with rfl | hd
        · exact absurd hcond hc
        · exact ⟨d, hd, hcond⟩

theorem activateAux_ps_or (m : Nat) :
    ∀ (ds : List PowerDomain), (∀ d ∈ ds, SingleBit d.id) →
      (ds.map PowerDomain.id).Nodup →
      ∀ ps, ∀ d ∈ ds,
        ((activateAux m ds ps).powerState &&& d.id = d.id
          ↔ (ps &&& d.id = d.id ∨ d.id &&& m ≠ 0)) := by
  intro ds
  induction ds with
  | nil => intro _ _ ps d hd; exact absurd hd (List.not_mem_nil d)
  | cons d0 rest ih =>
    intro hall hnodup ps d hd
    have hall' : ∀ d' ∈ rest, SingleBit d'.id :=
      fun d' hd' => hall d' (List.mem_cons_of_mem _ hd')
    rw [List.map_cons, List.nodup_cons] at hnodup
    rcases List.mem_cons.mp hd with rfl | hd
    · obtain ⟨j, hj8, hdj⟩ := hall d (List.mem_cons_self _ _)
      have hnomem : ∀ d' ∈ rest, d'.id ≠ 2 ^ j := by
        intro d' hd' hcid
        exact hnodup.1 (List.mem_map.mpr ⟨d', hd', by rw [hcid, ← hdj]⟩)
      by_cases hc : d.id &&& m ≠ 0 ∧ d.id &&& ps = 0
      · simp only [activateAux, if_pos hc]
        have hfr := (activateAux_notmem m j rest hall' hnomem (ps ||| d.id)).1
        rw [hdj] at hfr
        constructor
        · intro _
          exact Or.inr hc.1
        · intro _
          rw [hdj, and_pow_eq_pow_iff, hfr, testBit_or_pow]
          simp
      · simp only [activateAux, if_neg hc]
        have hfr := (activateAux_notmem m j rest hall' hnomem ps).1
        have hLHS : ((activateAux m rest ps).powerState &&& d.id = d.id)
            ↔ (ps &&& d.id = d.id) := by
          rw [hdj, and_pow_eq_pow_iff, and_pow_eq_pow_iff, hfr]
        rw [hLHS]
        by_cases hm : d.id &&& m ≠ 0
        · have hps : d.id &&& ps ≠ 0 := fun hz => hc ⟨hm, hz⟩
          have hA : ps &&& d.id = d.id := by
            rw [hdj, pow_and_ne_zero_iff] at hps
            rw [hdj, and_pow_eq_pow_iff]
            exact hps
          constructor
          · intro _
            exact Or.inl hA
          · intro _
            exact hA
        · constructor
          · intro h
            exact Or.inl h
          · intro h
            rcases h with h | h
            · exact h
            · exact absurd h hm
    · have hne : d.id ≠ d0.id := by
        intro h
        exact hnodup.1 (List.mem_map.mpr ⟨d, hd, h⟩)
      by_cases hc : d0.id &&& m ≠ 0 ∧ d0.id &&& ps = 0
      · simp only [activateAux, if_pos hc]
        rw [ih hall' hnodup.2 (ps ||| d0.id) d hd]
        rw [id_and_or_bit (hall' d hd) (hall d0 (List.mem_cons_self _ _)) hne ps]
      · simp only [activateAux, if_neg hc]
        exact ih hall' hnodup.2 ps d hd

theorem activateAux_setPower_mem (m : Nat) (ds : List PowerDomain)
    (hall : ∀ d ∈ ds, SingleBit d.id) (hnodup : (ds.map PowerDomain.id).Nodup)
    (ps : Nat) (d : PowerDomain) (hd : d ∈ ds) :
    (PMEvent.setPower d.id true ∈ (activateAux m ds ps).events
      ↔ (d.id &&& m ≠ 0 ∧ d.id &&& ps = 0)) := by
  rw [activateAux_events m ds hall hnodup ps]
  constructor
  · intro h
    obtain ⟨d', hd', heq⟩ := List.mem_map.mp h
    obtain ⟨_, hd'cond⟩ := List.mem_filter.mp hd'
    have hcond := of_decide_eq_true hd'cond
    have hid : d'.id = d.id := by injection heq
    rw [← hid]
    exact hcond
  · intro hcond
    exact List.mem_map.mpr ⟨d, List.mem_filter.mpr ⟨hd, decide_eq_true hcond⟩, rfl⟩

theorem count_onCallbackEvents_lt (ps : Nat) :
    ∀ (ss : List PowerSubscriber) (k j : Nat), j < k →
      (onCallbackEvents ps ss k).count (PMEvent.pwrOn j) = 0 := by
  intro ss
  induction ss with
  | nil => intro k j _; rfl
  | cons s rest ih =>
    intro k j hj
    by_cases h : s.IsOn ps = true
    · rw [onCallbackEvents, if_pos h, List.count_cons]
      rw [ih (k + 1) j (Nat.lt_succ_of_lt hj)]
      have hkj : ¬(k = j) := by omega
      simp [hkj]
    · rw [onCallbackEvents, if_neg h]
      exact ih (k + 1) j (Nat.lt_succ_of_lt hj)

theorem count_onCallbackEvents (ps : Nat) :
    ∀ (ss : List PowerSubscriber) (k m' : Nat),
      (onCallbackEvents ps ss k).count (PMEvent.pwrOn (k + m'))
        = match ss[m']? with
          | none => 0
          | some s => if s.IsOn ps then 1 else 0 := by
  intro ss
  induction ss with
  | nil => intro k m'; rfl
  | cons s rest ih =>
    intro k m'
    by_cases h : s.IsOn ps = true
    · rw [onCallbackEvents, if_pos h, List.count_cons]
      cases m' with
      | zero =>
        rw [count_onCallbackEvents_lt ps rest (k + 1) (k + 0) (by omega)]
        simp [h]
      | succ m'' =>
        have hsh : k + (m'' + 1) = (k + 1) + m'' := by omega
        rw [hsh, ih (k + 1) m'']
        have hne : ¬(k = k + 1 + m'') := by omega
        simp only [List.getElem?_cons_succ]
        simp [hne]
    · rw [onCallbackEvents, if_neg h]
      cases m' with
      | zero =>
        rw [count_onCallbackEvents_lt ps rest (k + 1) (k + 0) (by omega)]
        simp [h]
      | succ m'' =>
        have hsh : k + (m'' + 1) = (k + 1) + m'' := by omega
        rw [hsh, ih (k + 1) m'']
        simp only [List.getElem?_cons_succ]

/-- The subscriber index carried by an on-callback event, if any. -/
def pwrOnIdx : PMEvent → Option Nat
  | PMEvent.pwrOn j => some j
  | _ => none

theorem onCallback_indices_sorted (ps : Nat) :
    ∀ (ss : List PowerSubscriber) (k : Nat),
      (∀ x ∈ (onCallbackEvents ps ss k).filterMap pwrOnIdx, k ≤ x) ∧
      List.Sorted (fun a b => a < b)
        ((onCallbackEvents ps ss k).filterMap pwrOnIdx) := by
  intro ss
  induction ss with
  | nil =>
    intro k
    exact ⟨by simp [onCallbackEvents], by simp [onCallbackEvents]⟩
  | cons s rest ih =>
    intro k
    by_cases h : s.IsOn ps = true
    · rw [onCallbackEvents, if_pos h, List.filterMap_cons]
      simp only [pwrOnIdx]
      constructor
      · intro x hx
        rcases List.mem_cons.mp hx with rfl | hx
        · exact Nat.le_refl _
        · exact Nat.le_of_succ_le ((ih (k + 1)).1 x hx)
      · rw [List.sorted_cons]
        exact ⟨fun b hb => Nat.lt_of_succ_le ((ih (k + 1)).1 b hb), (ih (k + 1)).2⟩
    · rw [onCallbackEvents, if_neg h]
      exact ⟨fun x hx => Nat.le_of_succ_le ((ih (k + 1)).1 x hx), (ih (k + 1)).2⟩

theorem count_pwrOn_activateAux (m : Nat) (ds : List PowerDomain) (ps j : Nat) :
    (activateAux m ds ps).events.count (PMEvent.pwrOn j) = 0 := by
  apply count_eq_zero_of_shape
  intro e he
  obtain ⟨id, rfl⟩ := activateAux_events_shape m ds ps e he
  intro hcon
  cases hcon

/-- C7 (amended): `Activate(mask)` arms, marks live and actuates exactly the
registered domains whose bit is in `mask` and not already live; it returns
true iff at least one domain transitioned on; when (and only when) at least
one did, every subscriber whose `IsOn()` now holds receives its on-callback
exactly once, in traversal order of the subscriber list — which is reverse
registration order, since the constructor pushes at the head. -/
theorem C7_amended_activate (st : PMState) (mask : Nat)
    (hall : ∀ d ∈ st.domains, SingleBit d.id)
    (hnodup : (st.domains.map PowerDomain.id).Nodup) :
    ((PowerManager.Activate st mask).state.domains
      = st.domains.map (fun d =>
          if d.id &&& mask ≠ 0 ∧ d.id &&& st.powerState = 0
          then d.ResetTimeout 0 else d)) ∧
    (∀ d ∈ st.domains,
      ((PowerManager.Activate st mask).state.powerState &&& d.id = d.id
        ↔ (st.powerState &&& d.id = d.id ∨ d.id &&& mask ≠ 0))) ∧
    (∀ d ∈ st.domains,
      (PMEvent.setPower d.id true ∈ (PowerManager.Activate st mask).events
        ↔ (d.id &&& mask ≠ 0 ∧ d.id &&& st.powerState = 0))) ∧
    ((PowerManager.Activate st mask).retVal = true
      ↔ ∃ d ∈ st.domains, d.id &&& mask ≠ 0 ∧ d.id &&& st.powerState = 0) ∧
    (∀ j s, st.subscribers[j]? = some s →
      (PowerManager.Activate st mask).events.count (PMEvent.pwrOn j)
        = if (PowerManager.Activate st mask).retVal = true ∧
            s.IsOn (PowerManager.Activate st mask).state.powerState = true
          then 1 else 0) ∧
    List.Sorted (fun a b => a < b)
      ((PowerManager.Activate st mask).events.filterMap pwrOnIdx) := by
  by_cases hd : st.domains = []
  · refine ⟨?_, ?_, ?_, ?_, ?_, ?_⟩
    · simp [PowerManager.Activate, hd]
    · intro d hdm
      rw [hd] at hdm
      exact absurd hdm (List.not_mem_nil d)
    · intro d hdm
      rw [hd] at hdm
      exact absurd hdm (List.not_mem_nil d)
    · simp [PowerManager.Activate, hd]
    · intro j s hj
      simp [PowerManager.Activate, hd]
    · simp [PowerManager.Activate, hd]
  · have hbr : (PowerManager.Activate st mask).state.domains
        = (activateAux mask st.domains st.powerState).domains ∧
        (PowerManager.Activate st mask).state.powerState
          = (activateAux mask st.domains st.powerState).powerState ∧
        (PowerManager.Activate st mask).retVal
          = (activateAux mask st.domains st.powerState).retVal := by
      unfold PowerManager.Activate
      rw [if_neg hd]
      by_cases hq : st.subscribers = []
          ∨ (activateAux mask st.domains st.powerState).retVal = false
      · simp only [if_pos hq]
        exact ⟨trivial, trivial, trivial⟩
      · simp only [if_neg hq]
        exact ⟨trivial, trivial, trivial⟩
    refine ⟨?_, ?_, ?_, ?_, ?_, ?_⟩
    · rw [hbr.1]
      exact activateAux_domains mask st.domains hall hnodup st.powerState
    · intro d hdm
      rw [hbr.2.1]
      exact activateAux_ps_or mask st.domains hall hnodup st.powerState d hdm
    · intro d hdm
      unfold PowerManager.Activate
      rw [if_neg hd]
      by_cases hq : st.subscribers = []
          ∨ (activateAux mask st.domains st.powerState).retVal = false
      · simp only [if_pos hq]
        exact activateAux_setPower_mem mask st.domains hall hnodup
          st.powerState d hdm
      · simp only [if_neg hq]
        rw [List.mem_append]
        constructor
        · intro h
          rcases h with h | h
          · exact (activateAux_setPower_mem mask st.domains hall hnodup
              st.powerState d hdm).mp h
          · exfalso
            obtain ⟨jj, hcon⟩ := onCallbackEvents_shape _ _ _ _ h
            cases hcon
        · intro h
          exact Or.inl ((activateAux_setPower_mem mask st.domains hall hnodup
            st.powerState d hdm).mpr h)
    · rw [hbr.2.2]
      exact activateAux_retVal mask st.domains st.powerState
    · intro j s hj
      rw [hbr.2.2, hbr.2.1]
      unfold PowerManager.Activate
      rw [if_neg hd]
      by_cases hq : st.subscribers = []
          ∨ (activateAux mask st.domains st.powerState).retVal = false
      · simp only [if_pos hq]
        rw [count_pwrOn_activateAux]
        rcases hq with hq | hq
        · rw [hq] at hj
          simp at hj
        · rw [hq]
          simp
      · simp only [if_neg hq]
        push_neg at hq
        rw [List.count_append, count_pwrOn_activateAux, Nat.zero_add]
        have hc := count_onCallbackEvents
          (activateAux mask st.domains st.powerState).powerState
          st.subscribers 0 j
        simp only [Nat.zero_add, hj] at hc
        rw [hc]
        have hr : (activateAux mask st.domains st.powerState).retVal = true := by
          cases hrv : (activateAux mask st.domains st.powerState).retVal
          · exact absurd hrv hq.2
          · rfl
        rw [hr]
        simp
    · unfold PowerManager.Activate
      rw [if_neg hd]
      by_cases hq : st.subscribers = []
          ∨ (activateAux mask st.domains st.powerState).retVal = false
      · simp only [if_pos hq]
        have hnil : (activateAux mask st.domains st.powerState).events.filterMap
            pwrOnIdx = [] := by
          rw [List.filterMap_eq_nil_iff]
          intro e he
          obtain ⟨id, rfl⟩ := activateAux_events_shape _ _ _ e he
          rfl
        rw [hnil]
        exact List.sorted_nil
      · simp only [if_neg hq]
        rw [List.filterMap_append]
        have hnil : (activateAux mask st.domains st.powerState).events.filterMap
            pwrOnIdx = [] := by
          rw [List.filterMap_eq_nil_iff]
          intro e he
          obtain ⟨id, rfl⟩ := activateAux_events_shape _ _ _ e he
          rfl
        rw [hnil, List.nil_append]
        exact (onCallback_indices_sorted _ st.subscribers 0).2

/-- Counterexample to C7 as stated: (i) with the only requested domain
already live, no domain transitions and the `IsOn()` subscriber receives no
on-callback at all; (ii) with two subscribers both `IsOn()`, the callbacks
fire in traversal order — most recently registered (list position 0) first —
not in registration order. -/
theorem C7_counterexample :
    ((PowerManager.Activate ⟨[⟨1, 60000, 50⟩], [⟨1, false⟩], 1, 0,
        WKSource.wakeUp_none⟩ 1).events.count (PMEvent.pwrOn 0) = 0 ∧
      PowerSubscriber.IsOn ⟨1, false⟩ (PowerManager.Activate
        ⟨[⟨1, 60000, 50⟩], [⟨1, false⟩], 1, 0, WKSource.wakeUp_none⟩
        1).state.powerState = true ∧
      ¬((PowerManager.Activate ⟨[⟨1, 60000, 50⟩], [⟨1, false⟩], 1, 0,
        WKSource.wakeUp_none⟩ 1).events.count (PMEvent.pwrOn 0) = 1)) ∧
    ((PowerManager.Activate ⟨[⟨1, 60000, 0⟩],
        registerSubscriber ⟨1, false⟩ (registerSubscriber ⟨1, false⟩ []),
        0, 0, WKSource.wakeUp_none⟩ 1).events
      = [PMEvent.setPower 1 true, PMEvent.pwrOn 0, PMEvent.pwrOn 1] ∧
      ¬((PowerManager.Activate ⟨[⟨1, 60000, 0⟩],
        registerSubscriber ⟨1, false⟩ (registerSubscriber ⟨1, false⟩ []),
        0, 0, WKSource.wakeUp_none⟩ 1).events
      = [PMEvent.setPower 1 true, PMEvent.pwrOn 1, PMEvent.pwrOn 0])) := by
  exact ⟨⟨by decide, by decide, by decide⟩, by decide, by decide⟩

/-- Witness for C7's amended theorem at a concrete input: activating CPU and
SD over the boot registry from the powered-CPU state. -/
theorem C7_witness :
    ((PowerManager.Activate ⟨bootDomains, [⟨3, false⟩], 1, 0,
        WKSource.wakeUp_none⟩ 3).retVal = true
      ↔ ∃ d ∈ bootDomains, d.id &&& 3 ≠ 0 ∧ d.id &&& 1 = 0) ∧
    List.Sorted (fun a b => a < b)
      ((PowerManager.Activate ⟨bootDomains, [⟨3, false⟩], 1, 0,
        WKSource.wakeUp_none⟩ 3).events.filterMap pwrOnIdx) := by
  have h := C7_amended_activate
    ⟨bootDomains, [⟨3, false⟩], 1, 0, WKSource.wakeUp_none⟩ 3
    (by decide) (by decide)
  exact ⟨h.2.2.2.1, h.2.2.2.2.2⟩

end PowerMan
